import Mathlib

set_option maxRecDepth 100000

/-!
Verification development for the bilingual text merger
(`script.js`, class `BilingualMerger`, second revision).

Texts are modelled as `List Char`.  JavaScript regular-expression scans are
translated into explicit left-to-right scanners; floating-point arithmetic on
durations is modelled with exact rationals (`ℚ`), which agrees with the
JavaScript computation on everything the claims depend on (all scoring
quantities are integers, and the one rounding step, `Math.round(blockTime /
avgParaSec)`, is only evaluated far away from half-integer boundaries in every
concrete input used below).  The single point where IEEE arithmetic leaves the
rationals in-domain is `blockTime / 0 = ±Infinity` when every paragraph has a
zero duration estimate; `targetStreakOf` spells that case out explicitly, as
`ℚ` instead returns `0`.
-/

namespace BilingualMerger

/-- The JavaScript `\s` character class (whitespace as used by `trim`,
`\s+` collapsing, sentence splitting and the tokenizer). -/
def wsChar (c : Char) : Bool :=
  c == ' ' || c == '\t' || c == '\n' || c == '\r' || c == '\x0b' || c == '\x0c' ||
  c == ' ' || c == ' ' || (' ' ≤ c && c ≤ ' ') ||
  c == ' ' || c == ' ' || c == ' ' || c == ' ' ||
  c == '　' || c == '﻿'

/-- JavaScript `String.prototype.trim`: drop whitespace from both ends. -/
def trimChars (l : List Char) : List Char :=
  ((l.dropWhile wsChar).reverse.dropWhile wsChar).reverse

theorem length_dropWhile_le' (p : Char → Bool) (l : List Char) :
    (l.dropWhile p).length ≤ l.length := by
  induction l with
  | nil => simp [List.dropWhile]
  | cons c cs ih =>
    by_cases h : p c
    · simpa [List.dropWhile, h] using Nat.le_succ_of_le ih
    · simp [List.dropWhile, h]

theorem length_takeWhile_lt_of_mem (p : Char → Bool) (l : List Char) (x : Char)
    (hx : x ∈ l) (hpx : p x = false) : (l.takeWhile p).length < l.length := by
  induction l with
  | nil => cases hx
  | cons c cs ih =>
    by_cases h : p c
    · rcases List.mem_cons.mp hx with rfl | hx'
      · rw [h] at hpx; cases hpx
      · simpa [List.takeWhile, h] using Nat.succ_lt_succ (ih hx')
    · simp [List.takeWhile, h]

theorem length_takeWhile_add_dropWhile (p : Char → Bool) (l : List Char) :
    (l.takeWhile p).length + (l.dropWhile p).length = l.length := by
  rw [← List.length_append, List.takeWhile_append_dropWhile]

/-!
Every regex scan below is written with an explicit fuel parameter (recursion
on the fuel is structural, so the kernel can evaluate the scanners on
concrete inputs).  Each scan step consumes at least one character, so fuel
equal to the input length always suffices; the zero-fuel fallback
(returning the residue unchanged / nothing) is unreachable from the
wrappers, which pass the input length as fuel.
-/

/-- Tokenizer for the global regex `«[^»]+»|\S+`: at each match position a
`«...»` quoted phrase (with at least one character before the first `»`)
is one token, otherwise a maximal run of non-whitespace characters is one
token.  Used by `countWords` (line 1229) and `estimateDuration` (line 1257). -/
def tokensGo : ℕ → List Char → List (List Char)
  | _, [] => []
  | 0, _ :: _ => []
  | fuel + 1, c :: cs =>
    if wsChar c then tokensGo fuel cs
    else
      -- `cs.dropWhile (· ≠ '»')` is either empty (no closing quote) or starts
      -- with `'»'`; `«[^»]+»` also needs a nonempty body, otherwise the
      -- alternation falls back to a maximal `\S+` run starting at `c`.
      let body := cs.takeWhile (fun d => d != '»')
      let rest := cs.dropWhile (fun d => d != '»')
      if c = '«' ∧ ¬ body.isEmpty ∧ ¬ rest.isEmpty then
        ('«' :: body ++ ['»']) :: tokensGo fuel rest.tail
      else
        (c :: cs.takeWhile (fun d => !wsChar d)) ::
        tokensGo fuel (cs.dropWhile (fun d => !wsChar d))

def tokens (l : List Char) : List (List Char) := tokensGo l.length l

/-- `countWords` (lines 1223-1231): trim, then count regex tokens. -/
def countWords (l : List Char) : ℕ := (tokens (trimChars l)).length

/-- Step 1a of `estimateDuration` (line 1241): the global regex
`[*]{3,}|[-]{3,}` replaces every run of three or more `*` (or `-`) by a
single space. -/
def collapseSepsGo : ℕ → List Char → List Char
  | _, [] => []
  | 0, l => l
  | fuel + 1, c :: cs =>
    if c = '*' then
      if 2 ≤ (cs.takeWhile (fun d => d == '*')).length then
        ' ' :: collapseSepsGo fuel (cs.dropWhile (fun d => d == '*'))
      else (c :: cs.takeWhile (fun d => d == '*')) ++
           collapseSepsGo fuel (cs.dropWhile (fun d => d == '*'))
    else if c = '-' then
      if 2 ≤ (cs.takeWhile (fun d => d == '-')).length then
        ' ' :: collapseSepsGo fuel (cs.dropWhile (fun d => d == '-'))
      else (c :: cs.takeWhile (fun d => d == '-')) ++
           collapseSepsGo fuel (cs.dropWhile (fun d => d == '-'))
    else c :: collapseSepsGo fuel cs

def collapseSeps (l : List Char) : List Char := collapseSepsGo l.length l

/-- Step 1b of `estimateDuration` (line 1241): `\s+` → single space. -/
def collapseWsGo : ℕ → List Char → List Char
  | _, [] => []
  | 0, l => l
  | fuel + 1, c :: cs =>
    if wsChar c then ' ' :: collapseWsGo fuel (cs.dropWhile wsChar)
    else c :: collapseWsGo fuel cs

def collapseWs (l : List Char) : List Char := collapseWsGo l.length l

/-- Step 2 of `estimateDuration` (line 1244): the global regex
`"\s+([^"]*?)\s+"` → `"$1"`.  On its input (already whitespace-collapsed)
this matches a straight quote whose inter-quote material starts and ends
with whitespace and has length at least two, and strips that surrounding
whitespace (greedy outer `\s+`, lazy body). -/
def quoteNormGo : ℕ → List Char → List Char
  | _, [] => []
  | 0, l => l
  | fuel + 1, c :: cs =>
    -- `cs.dropWhile (· ≠ '"')` is empty (no closing quote, no match) or
    -- starts with the closing `'"'`.
    let mid := cs.takeWhile (fun d => d != '"')
    let rest := cs.dropWhile (fun d => d != '"')
    if c = '"' ∧ ¬ rest.isEmpty ∧ 2 ≤ mid.length ∧
        mid.head?.any wsChar ∧ mid.getLast?.any wsChar then
      ('"' :: trimChars mid ++ ['"']) ++ quoteNormGo fuel rest.tail
    else c :: quoteNormGo fuel cs

def quoteNorm (l : List Char) : List Char := quoteNormGo l.length l

/-- Step 3 of `estimateDuration` (line 1248):
`text.replace(/([.!?])\s+/g, '$1|').split('|')` — a sentence ends after a
`.`, `!` or `?` followed by whitespace (the whitespace run is consumed),
and the split also fires at any literal `|` already in the text. -/
def sentSplitGo : ℕ → List Char → List Char → List (List Char)
  | _, [], acc => [acc.reverse]
  | 0, _, acc => [acc.reverse]
  | fuel + 1, c :: cs, acc =>
    if c = '|' then acc.reverse :: sentSplitGo fuel cs []
    else if (c == '.' || c == '!' || c == '?') && cs.head?.any wsChar then
      (acc.reverse ++ [c]) :: sentSplitGo fuel (cs.dropWhile wsChar) []
    else sentSplitGo fuel cs (c :: acc)

def sentSplit (l : List Char) : List (List Char) := sentSplitGo l.length l []

/-- Per-token extra units (lines 1263-1271): `+1` if the token ends in
`,`, `;` or `:`; `+2` if the token is exactly `#`. -/
def wordBonus (w : List Char) : ℕ :=
  (if w.getLast?.any (fun d => d == ',' || d == ';' || d == ':') then 1 else 0) +
  (if w = ['#'] then 2 else 0)

/-- Units contributed by one (trimmed, nonempty) sentence
(lines 1252-1279): one per token, plus token bonuses, plus `2` if the
sentence's last character is `.`, `!` or `?`. -/
def sentenceUnits (sent : List Char) : ℕ :=
  let trimmed := trimChars sent
  let ws := tokens trimmed
  ws.length + (ws.map wordBonus).sum +
    (if trimmed.getLast?.any (fun d => d == '.' || d == '!' || d == '?') then 2 else 0)

/-- The punctuation-aware text branch of `estimateDuration`
(lines 1239-1281). -/
def estimateDurationText (t : List Char) : ℚ :=
  let cleaned := collapseWs (collapseSeps t)
  let sentences := sentSplit (quoteNorm cleaned)
  let totalUnits :=
    (sentences.map (fun s => if (trimChars s).isEmpty then 0 else sentenceUnits s)).sum
  ((totalUnits : ℚ) / 150) * 60

/-- `estimateDuration` (lines 1234-1282): a plain number is converted at the
fixed 150 words-per-minute rate; raw text goes through the
punctuation-aware pipeline. -/
def estimateDuration : ℕ ⊕ List Char → ℚ
  | .inl n => ((n : ℚ) / 150) * 60
  | .inr t => estimateDurationText t

/-- Line-ending normalization of `parseParagraphs` (line 1286):
`\r\n?` → `\n`. -/
def normalizeNewlines : List Char → List Char
  | [] => []
  | '\r' :: '\n' :: cs => '\n' :: normalizeNewlines cs
  | '\r' :: cs => '\n' :: normalizeNewlines cs
  | c :: cs => c :: normalizeNewlines cs

/-- The split on `/\n\s*\n+/` (line 1288).  A delimiter starts at a `\n`
whose maximal whitespace run contains a further `\n`, and (greedy `\s*`,
backtracking into a final `\n+`) extends exactly to the last `\n` of that
run; trailing non-newline whitespace of the run starts the next piece. -/
def paraSplitGo : ℕ → List Char → List Char → List (List Char)
  | _, [], acc => [acc.reverse]
  | 0, _, acc => [acc.reverse]
  | fuel + 1, c :: cs, acc =>
    if c = '\n' then
      let inner := cs.takeWhile wsChar
      if '\n' ∈ inner then
        acc.reverse ::
          paraSplitGo fuel ((inner.reverse.takeWhile (fun d => d != '\n')).reverse ++
                             cs.dropWhile wsChar) []
      else paraSplitGo fuel cs ('\n' :: acc)
    else paraSplitGo fuel cs (c :: acc)

/-- `parseParagraphs` (lines 1285-1291): normalize line endings, split on
blank-line runs, trim every block, drop empty blocks. -/
def parseParagraphs (t : List Char) : List (List Char) :=
  ((paraSplitGo (normalizeNewlines t).length (normalizeNewlines t) []).map trimChars).filter
    (fun p => !p.isEmpty)

/-- The line split `text.split(/\r?\n/)` used by `parseSlides` (line 1295). -/
def splitLinesGo : List Char → List Char → List (List Char)
  | [], acc => [acc.reverse]
  | '\r' :: '\n' :: cs, acc => acc.reverse :: splitLinesGo cs []
  | '\n' :: cs, acc => acc.reverse :: splitLinesGo cs []
  | c :: cs, acc => splitLinesGo cs (c :: acc)

def splitLines (l : List Char) : List (List Char) := splitLinesGo l []

/-- The heading test `/^\s*#/` (line 1299). -/
def isHashLine (l : List Char) : Bool :=
  (l.dropWhile wsChar).head?.any (fun d => d == '#')

/-- The scan of `parseSlides` (lines 1296-1316), producing raw
`(title, body)` pairs; lines before the first heading are dropped. -/
def parseSlidesGo : List (List Char) → Option (List Char × List (List Char)) →
    List (List Char × List Char)
  | [], none => []
  | [], some (t, bls) => [(t, trimChars (List.intercalate ['\n'] bls.reverse))]
  | l :: ls, cur =>
    if isHashLine l then
      match cur with
      | none => parseSlidesGo ls (some (trimChars l, []))
      | some (t, bls) =>
        (t, trimChars (List.intercalate ['\n'] bls.reverse)) ::
        parseSlidesGo ls (some (trimChars l, []))
    else
      match cur with
      | none => parseSlidesGo ls none
      | some (t, bls) => parseSlidesGo ls (some (t, l :: bls))

structure Slide where
  title : List Char
  body : List Char
  paragraphs : List (List Char)
  words : ℕ
  deriving Repr, DecidableEq

/-- `parseSlides` (lines 1294-1327). -/
def parseSlides (t : List Char) : List Slide :=
  (parseSlidesGo (splitLines t) none).map (fun tb =>
    let paragraphs := parseParagraphs tb.2
    { title := tb.1
      -- the map at line 1317 re-trims the (already trimmed) body
      body := trimChars tb.2
      paragraphs := paragraphs
      words := (paragraphs.map countWords).sum })

/-! ## Speech-mode merge (lines 1332-1512) -/

/-- `Math.abs` on integers. -/
def intAbs (a : ℤ) : ℤ := if a < 0 then -a else a

/-- `Math.abs` on (exact) durations. -/
def ratAbs (q : ℚ) : ℚ := if q < 0 then -q else q

/-- `Math.max` on integers. -/
def mathMax (a b : ℤ) : ℤ := if a < b then b else a

/-- `Math.min` on integers. -/
def mathMin (a b : ℤ) : ℤ := if b < a then b else a

/-- `Math.floor` on an exact rational (`Int.ediv` is floor division for the
positive denominator). -/
def ratFloor (q : ℚ) : ℤ := q.num.ediv q.den

/-- `Math.round`: round half toward positive infinity. -/
def mathRound (q : ℚ) : ℤ := ratFloor (q + 1 / 2)

theorem intAbs_eq_abs (a : ℤ) : intAbs a = |a| := by
  unfold intAbs
  rcases le_or_lt 0 a with h | h
  · rw [if_neg (by omega), abs_of_nonneg h]
  · rw [if_pos h, abs_of_neg h]

theorem ratAbs_eq_abs (q : ℚ) : ratAbs q = |q| := by
  unfold ratAbs
  rcases le_or_lt 0 q with h | h
  · rw [if_neg (by exact not_lt.mpr h), abs_of_nonneg h]
  · rw [if_pos h, abs_of_neg h]

theorem mathMax_eq_max (a b : ℤ) : mathMax a b = max a b := by
  unfold mathMax
  rcases le_or_lt b a with h | h
  · rw [if_neg (by omega), max_eq_left h]
  · rw [if_pos h, max_eq_right (le_of_lt h)]

theorem mathMin_eq_min (a b : ℤ) : mathMin a b = min a b := by
  unfold mathMin
  rcases le_or_lt a b with h | h
  · rw [if_neg (by omega), min_eq_left h]
  · rw [if_pos h, min_eq_right (le_of_lt h)]

/-- `Math.max` on natural counts. -/
def natMax (a b : ℕ) : ℕ := if a < b then b else a

/-- `Math.min` on natural counts. -/
def natMin (a b : ℕ) : ℕ := if b < a then b else a

theorem natMax_eq_max (a b : ℕ) : natMax a b = max a b := by
  unfold natMax
  rcases le_or_lt b a with h | h
  · rw [if_neg (by omega), max_eq_left h]
  · rw [if_pos h, max_eq_right (le_of_lt h)]

theorem natMin_eq_min (a b : ℕ) : natMin a b = min a b := by
  unfold natMin
  rcases le_or_lt a b with h | h
  · rw [if_neg (by omega), min_eq_left h]
  · rw [if_pos h, min_eq_right (le_of_lt h)]

inductive Lang | en | fr
  deriving Repr, DecidableEq

def Lang.other : Lang → Lang
  | .en => .fr
  | .fr => .en

structure Para where
  text : List Char
  words : ℕ
  deriving Repr, DecidableEq

/-- One entry of the `choices` array (lines 1439-1445).  Note it records the
chosen paragraph's language and word count and the alternate's text, but NOT
the chosen paragraph's text: the JavaScript swap pass later reads the
nonexistent field `lastChoice.text`. -/
structure Choice where
  lang : Lang
  words : ℕ
  altLang : Lang
  altWords : ℕ
  altText : List Char
  deriving Repr, DecidableEq

structure MergeState where
  enWordsUsed : ℤ
  frWordsUsed : ℤ
  enDur : ℚ
  frDur : ℚ
  deltaSec : ℚ
  streakLang : Option Lang
  streakDuration : ℚ
  streakCount : ℕ
  outputParas : List (List Char)
  choices : List Choice

def initialMergeState : MergeState :=
  { enWordsUsed := 0, frWordsUsed := 0, enDur := 0, frDur := 0, deltaSec := 0
    streakLang := none, streakDuration := 0, streakCount := 0
    outputParas := [], choices := [] }

/-- The score comparison and tie-break (lines 1401-1432), deciding which
language to emit at a scored index.  A language with zero words scores
`⊤` (JavaScript `Infinity`). -/
def chooseLang (targetStreakCount : ℤ) (startLang : Lang)
    (enWordsUsed frWordsUsed : ℤ) (streakLang : Option Lang) (streakCount : ℕ)
    (enWords frWords : ℕ) : Lang :=
  let mustSwitch := streakLang.isSome ∧ (targetStreakCount ≤ (streakCount : ℤ))
  let enScore : WithTop ℤ :=
    if enWords = 0 then ⊤
    else (( intAbs ((enWordsUsed + enWords) - frWordsUsed) +
            (if streakLang = some .fr ∧ ¬ mustSwitch
              then (targetStreakCount - streakCount) * 2 else 0) +
            (if streakLang = some .en ∧ mustSwitch then 1000000 else 0) : ℤ) : WithTop ℤ)
  let frScore : WithTop ℤ :=
    if frWords = 0 then ⊤
    else (( intAbs (enWordsUsed - (frWordsUsed + frWords)) +
            (if streakLang = some .en ∧ ¬ mustSwitch
              then (targetStreakCount - streakCount) * 2 else 0) +
            (if streakLang = some .fr ∧ mustSwitch then 1000000 else 0) : ℤ) : WithTop ℤ)
  if enScore < frScore then .en
  else if frScore < enScore then .fr
  else
    let wordGap := enWordsUsed - frWordsUsed
    if 0 < wordGap ∧ 0 < frWords then .fr
    else if wordGap < 0 ∧ 0 < enWords then .en
    else startLang

/-- One iteration of the pairwise walk (lines 1369-1465). -/
def mergeStep (targetStreakCount : ℤ) (startLang : Lang)
    (st : MergeState) (enPara frPara : Para) : MergeState :=
  if enPara.text = [] ∧ frPara.text = [] then st
  else if st.streakLang = none ∧
      ((startLang = .en ∧ 0 < enPara.words) ∨ (startLang = .fr ∧ 0 < frPara.words)) then
    -- first emitted paragraph: honor the requested starting language
    match startLang with
    | .en =>
      let dur := estimateDuration (.inr enPara.text)
      { st with
        outputParas := st.outputParas ++ [enPara.text]
        enWordsUsed := st.enWordsUsed + enPara.words
        enDur := st.enDur + dur
        deltaSec := st.deltaSec + dur
        streakLang := some .en, streakDuration := dur, streakCount := 1 }
    | .fr =>
      let dur := estimateDuration (.inr frPara.text)
      { st with
        outputParas := st.outputParas ++ [frPara.text]
        frWordsUsed := st.frWordsUsed + frPara.words
        frDur := st.frDur + dur
        deltaSec := st.deltaSec - dur
        streakLang := some .fr, streakDuration := dur, streakCount := 1 }
  else
    let chosenLang := chooseLang targetStreakCount startLang
      st.enWordsUsed st.frWordsUsed st.streakLang st.streakCount
      enPara.words frPara.words
    let chosenPara := match chosenLang with | .en => enPara | .fr => frPara
    let altPara := match chosenLang with | .en => frPara | .fr => enPara
    let dur := estimateDuration (.inr chosenPara.text)
    let st1 :=
      { st with
        outputParas := st.outputParas ++ [chosenPara.text]
        choices := st.choices ++
          [({ lang := chosenLang, words := chosenPara.words,
              altLang := chosenLang.other, altWords := altPara.words,
              altText := altPara.text : Choice })] }
    let st2 :=
      match chosenLang with
      | .en => { st1 with enWordsUsed := st1.enWordsUsed + chosenPara.words,
                          enDur := st1.enDur + dur, deltaSec := st1.deltaSec + dur }
      | .fr => { st1 with frWordsUsed := st1.frWordsUsed + chosenPara.words,
                          frDur := st1.frDur + dur, deltaSec := st1.deltaSec - dur }
    if st.streakLang = some chosenLang then
      { st2 with streakDuration := st2.streakDuration + dur,
                 streakCount := st2.streakCount + 1 }
    else
      { st2 with streakLang := some chosenLang, streakDuration := dur,
                 streakCount := 1 }

structure MergeResult where
  text : List Char
  enWords : ℤ
  frWords : ℤ
  enDur : ℚ
  frDur : ℚ
  deriving Repr, DecidableEq

def clampInt (val lo hi : ℤ) : ℤ := mathMin (mathMax val lo) hi

/-- `targetStreakCount` as computed at lines 1357-1367 (plus the parsing of
the two texts feeding into it).  When the average paragraph duration is `0`
(every paragraph estimates to zero seconds, e.g. a lone separator run),
IEEE division gives `baseBlockTime / 0 = ±Infinity`, which survives
`Math.round` and is resolved by the clamp to the corresponding bound;
`ℚ` has no infinities (`x / 0 = 0`), so that case is written out
explicitly. -/
def targetStreakOf (enText frText : List Char) (blockTime : ℤ) : ℤ :=
  let baseBlockTime : ℤ := if blockTime = 0 then 45 else blockTime
  let enParagraphs := parseParagraphs enText
  let frParagraphs := parseParagraphs frText
  let totalPairs := natMax enParagraphs.length frParagraphs.length
  let totalParas := enParagraphs.length + frParagraphs.length
  let totalParaSec : ℚ :=
    (enParagraphs.map (fun p => estimateDuration (.inr p))).sum +
    (frParagraphs.map (fun p => estimateDuration (.inr p))).sum
  let avgParaSec : ℚ := if 0 < totalParas then totalParaSec / totalParas else 5
  let maxAllowedStreak : ℤ := mathMax 1 (totalPairs / 2)
  if avgParaSec = 0 then
    if 0 < baseBlockTime then mathMax 2 maxAllowedStreak else 1
  else
    clampInt (mathRound ((baseBlockTime : ℚ) / avgParaSec)) 1 (mathMax 2 maxAllowedStreak)

/-- The final balance-correction swap pass (lines 1468-1503).  Faithful to
the JavaScript, including its two slips: `lastChoice.text` is not a field
of the stored choice (it is `undefined`, so `estimateDuration('')` = 0 is
subtracted instead of the swapped-out paragraph's duration), and the
output index used is `choices.length - 1`, which is one short of the last
output paragraph whenever the first paragraph was emitted by the forced
starting-language branch (which does not push onto `choices`). -/
def mergeSwapPass (st : MergeState) : MergeState :=
  if st.choices = [] then st
  else
    let lastIdx := st.choices.length - 1
    match st.choices.getLast? with
    | none => st
    | some lastChoice =>
      if 0 < lastChoice.altWords then
        let currentDelta := intAbs (st.enWordsUsed - st.frWordsUsed)
        let swapEn := match lastChoice.lang with
          | .en => st.enWordsUsed - lastChoice.words
          | .fr => st.enWordsUsed + lastChoice.altWords
        let swapFr := match lastChoice.lang with
          | .en => st.frWordsUsed + lastChoice.altWords
          | .fr => st.frWordsUsed - lastChoice.words
        let swapDelta := intAbs (swapEn - swapFr)
        if swapDelta < currentDelta then
          let st1 := match lastChoice.lang with
            | .en =>
              { st with
                enDur := st.enDur - estimateDuration (.inr []),
                frDur := st.frDur + estimateDuration (.inr lastChoice.altText) }
            | .fr =>
              { st with
                frDur := st.frDur - estimateDuration (.inr []),
                enDur := st.enDur + estimateDuration (.inr lastChoice.altText) }
          { st1 with
            outputParas := st1.outputParas.set lastIdx lastChoice.altText
            enWordsUsed := swapEn
            frWordsUsed := swapFr }
        else st
      else st

def fillerPara : Para := { text := [], words := 0 }

def sepSpeech : List Char := ('\n' :: '\n' :: '*' :: '*' :: '*' :: '\n' :: '\n' :: [])

/-- The paragraph records built at lines 1335-1342. -/
def mergeParas (t : List Char) : List Para :=
  (parseParagraphs t).map (fun text => { text := text, words := countWords text })

/-- The state after the pairwise walk and the swap pass of `merge`. -/
def mergeFinalState (enText frText : List Char) (startLang : Lang)
    (blockTime : ℤ) : MergeState :=
  let enParagraphs := mergeParas enText
  let frParagraphs := mergeParas frText
  let totalPairs := natMax enParagraphs.length frParagraphs.length
  let targetStreakCount := targetStreakOf enText frText blockTime
  mergeSwapPass <|
    (List.range totalPairs).foldl
      (fun st i =>
        mergeStep targetStreakCount startLang st
          (enParagraphs.getD i fillerPara) (frParagraphs.getD i fillerPara))
      initialMergeState

/-- `merge` (lines 1332-1512). -/
def merge (enText frText : List Char) (startLang : Lang) (blockTime : ℤ) :
    MergeResult :=
  let finalSt := mergeFinalState enText frText startLang blockTime
  { text := List.intercalate sepSpeech finalSt.outputParas
    enWords := finalSt.enWordsUsed
    frWords := finalSt.frWordsUsed
    enDur := finalSt.enDur
    frDur := finalSt.frDur }

/-! ## Presentation-mode merge (lines 1517-1726) -/

inductive SlideMode | single | mixed
  deriving Repr, DecidableEq

inductive MixedPattern | alternating | repeating
  deriving Repr, DecidableEq

def sepSlides : List Char :=
  ('\n' :: '\n' :: '-' :: '-' :: '-' :: '\n' :: '\n' :: [])

/-- The filler `{ title: `# Slide ${i+1}`, body: '', paragraphs: [], words: 0 }`
used for a missing slide at index `i` (lines 1530-1531, 1579-1580). -/
def fillerSlide (i : ℕ) : Slide :=
  { title := "# Slide ".data ++ (toString (i + 1)).data
    body := [], paragraphs := [], words := 0 }

def fallbackTitleOf (i : ℕ) : List Char := "# Slide ".data ++ (toString (i + 1)).data

/-- JavaScript `a || b || c` on strings (empty is falsy), used for the
slide title (lines 1539, 1660). -/
def firstNonEmpty (a b c : List Char) : List Char :=
  if a ≠ [] then a else if b ≠ [] then b else c

structure SingleState where
  enWordsUsed : ℤ
  frWordsUsed : ℤ
  enDur : ℚ
  frDur : ℚ
  slidesOut : List (List Char)

/-- Appending one chosen slide to the single-mode accumulators
(lines 1556-1564). -/
def singleEmit (st : SingleState) (slideText : List Char) (dur : ℚ)
    (lang : Lang) (words : ℕ) : SingleState :=
  match lang with
  | .en =>
    { st with slidesOut := st.slidesOut ++ [slideText]
              enWordsUsed := st.enWordsUsed + words
              enDur := st.enDur + dur }
  | .fr =>
    { st with slidesOut := st.slidesOut ++ [slideText]
              frWordsUsed := st.frWordsUsed + words
              frDur := st.frDur + dur }

/-- One slide of single-slide-language mode (lines 1529-1565). -/
def singleStep (startLang : Lang) (enSlides frSlides : List Slide)
    (totalSlides : ℕ) (st : SingleState) (i : ℕ) : SingleState :=
  let enSlide := enSlides.getD i (fillerSlide i)
  let frSlide := frSlides.getD i (fillerSlide i)
  let totalParas := natMax enSlide.paragraphs.length frSlide.paragraphs.length
  if totalParas = 0 then st
  else
    let slideStart := if i % 2 = 0 then startLang else startLang.other
    let startSlide := match slideStart with | .en => enSlide | .fr => frSlide
    let otherSlide := match slideStart with | .en => frSlide | .fr => enSlide
    let title := firstNonEmpty startSlide.title otherSlide.title (fallbackTitleOf i)
    let chosenLang := if 0 < startSlide.words then slideStart else slideStart.other
    let chosenSlide := if 0 < startSlide.words then startSlide else otherSlide
    -- On the final slide, allow swapping to improve the overall balance.
    let chosen :=
      if i = totalSlides - 1 ∧ 0 < otherSlide.words then
        let currentGap :=
          intAbs ((st.enWordsUsed + (if chosenLang = .en then (chosenSlide.words : ℤ) else 0)) -
            (st.frWordsUsed + (if chosenLang = .fr then (chosenSlide.words : ℤ) else 0)))
        let altLang := chosenLang.other
        let altSlide := if chosenLang = slideStart then otherSlide else startSlide
        let altGap :=
          intAbs ((st.enWordsUsed + (if altLang = .en then (altSlide.words : ℤ) else 0)) -
            (st.frWordsUsed + (if altLang = .fr then (altSlide.words : ℤ) else 0)))
        if altGap < currentGap then (altLang, altSlide) else (chosenLang, chosenSlide)
      else (chosenLang, chosenSlide)
    let slideText := trimChars (title ++ '\n' :: chosen.2.body)
    let dur := estimateDuration (.inr (title ++ '\n' :: chosen.2.body))
    singleEmit st slideText dur chosen.1 chosen.2.words

/-- One slide's metadata for mixed mode (lines 1577-1594). -/
structure SlideMeta where
  index : ℕ
  enSlide : Slide
  frSlide : Slide
  enParas : List Para
  frParas : List Para
  totalParas : ℕ
  defaultCut : ℕ
  fallbackTitle : List Char

def slidesMetaOf (enSlides frSlides : List Slide) (totalSlides : ℕ) :
    List SlideMeta :=
  (List.range totalSlides).filterMap (fun i =>
    let enSlide := enSlides.getD i (fillerSlide i)
    let frSlide := frSlides.getD i (fillerSlide i)
    let totalParas := natMax enSlide.paragraphs.length frSlide.paragraphs.length
    if totalParas = 0 then none
    else some
      { index := i, enSlide := enSlide, frSlide := frSlide
        enParas := enSlide.paragraphs.map (fun t => { text := t, words := countWords t })
        frParas := frSlide.paragraphs.map (fun t => { text := t, words := countWords t })
        totalParas := totalParas
        -- Math.ceil(totalParas / 2)
        defaultCut := if totalParas ≤ 1 then 1 else (totalParas + 1) / 2
        fallbackTitle := fallbackTitleOf i })

structure ParaChoice where
  text : List Char
  lang : Lang
  words : ℕ
  deriving Repr, DecidableEq

/-- The per-paragraph assignment loop of `buildPlan` (lines 1621-1636):
paragraphs before the cut take the slide's leading language, the rest take
the other one, with content fallback to the opposite side and skipping of
positions empty on both sides. -/
def assignParas (meta : SlideMeta) (slideStart : Lang) (cut : ℕ) :
    List ParaChoice :=
  (List.range meta.totalParas).filterMap (fun idx =>
    let plannedLang := if idx < cut then slideStart else slideStart.other
    let primary := (match plannedLang with
      | .en => meta.enParas | .fr => meta.frParas).getD idx fillerPara
    let fallback := (match plannedLang with
      | .en => meta.frParas | .fr => meta.enParas).getD idx fillerPara
    let chosen := if primary.text ≠ [] then primary else fallback
    if chosen.text = [] then none
    else some { text := chosen.text
                lang := if primary.text ≠ [] then plannedLang else plannedLang.other
                words := chosen.words })

/-- The monolingual-slide correction (lines 1639-1655): if every assigned
paragraph landed in one language, append the missing language's paragraph
at the slide's last paragraph index when it is nonempty. -/
def fixMonolingual (meta : SlideMeta) (paraOrder : List ParaChoice) :
    List ParaChoice :=
  if paraOrder ≠ [] ∧ (paraOrder.all (fun p => p.lang = .en) ∨
      paraOrder.all (fun p => p.lang = .fr)) then
    let missingLang : Lang := if paraOrder.all (fun p => p.lang = .en) then .fr else .en
    let missingPara := (match missingLang with
      | .en => meta.enParas | .fr => meta.frParas).getD (meta.totalParas - 1) fillerPara
    if missingPara.text ≠ [] then
      paraOrder ++ [{ text := missingPara.text, lang := missingLang,
                      words := missingPara.words }]
    else paraOrder
  else paraOrder

structure Plan where
  slidesOut : List (List Char × Lang)
  enWords : ℤ
  frWords : ℤ
  enDur : ℚ
  frDur : ℚ

/-- One slide of `buildPlan` (the body of the loop at lines 1604-1677).
The JavaScript accumulates each slide's word/duration contributions
incrementally inside the paragraph loop; here they are summed over the
assembled paragraph list, which adds the same numbers. -/
def buildPlanStep (startLang : Lang) (pattern : MixedPattern)
    (cuts : List (Option ℕ)) (acc : Plan × Lang) (meta : SlideMeta) :
    Plan × Lang :=
  let plan := acc.1
  let lastEndLang := acc.2
  let slideStart :=
    match pattern with
    | .repeating => startLang
    | .alternating => if plan.slidesOut.length = 0 then startLang else lastEndLang
  let rawCut : Option ℕ := cuts.getD meta.index none
  let cut : ℕ :=
    if meta.totalParas ≤ 1 then 1
    else natMax 1 (natMin (meta.totalParas - 1) (rawCut.getD meta.defaultCut))
  let paraOrder := fixMonolingual meta (assignParas meta slideStart cut)
  let slideEn : ℤ := (paraOrder.filterMap
    (fun p => match p.lang with | .en => some (p.words : ℤ) | .fr => none)).sum
  let slideFr : ℤ := (paraOrder.filterMap
    (fun p => match p.lang with | .fr => some (p.words : ℤ) | .en => none)).sum
  let durEn : ℚ := (paraOrder.filterMap
    (fun p => match p.lang with
      | .en => some (estimateDuration (.inr p.text)) | .fr => none)).sum
  let durFr : ℚ := (paraOrder.filterMap
    (fun p => match p.lang with
      | .fr => some (estimateDuration (.inr p.text)) | .en => none)).sum
  let endLang := ((paraOrder.getLast?).map (fun p => p.lang)).getD slideStart
  let startSlide := match slideStart with | .en => meta.enSlide | .fr => meta.frSlide
  let otherSlide := match slideStart with | .en => meta.frSlide | .fr => meta.enSlide
  let title := firstNonEmpty startSlide.title otherSlide.title meta.fallbackTitle
  let parts := [title] ++
    (if 0 < paraOrder.length
      then [List.intercalate ('\n' :: '\n' :: []) (paraOrder.map (fun p => p.text))]
      else [])
  let slideText := trimChars (List.intercalate ('\n' :: '\n' :: []) parts)
  let titleDurEn : ℚ :=
    match slideStart with | .en => estimateDuration (.inr title) | .fr => 0
  let titleDurFr : ℚ :=
    match slideStart with | .fr => estimateDuration (.inr title) | .en => 0
  ({ slidesOut := plan.slidesOut ++ [(slideText, endLang)]
     enWords := plan.enWords + slideEn
     frWords := plan.frWords + slideFr
     enDur := plan.enDur + durEn + titleDurEn
     frDur := plan.frDur + durFr + titleDurFr }, endLang)

/-- `buildPlan` (lines 1596-1680). -/
def buildPlan (slidesMeta : List SlideMeta) (startLang : Lang)
    (pattern : MixedPattern) (cuts : List (Option ℕ)) : Plan :=
  (slidesMeta.foldl (buildPlanStep startLang pattern cuts)
    ({ slidesOut := [], enWords := 0, frWords := 0, enDur := 0, frDur := 0 }, startLang)).1

/-- One candidate probe of the hill-climbing search (lines 1698-1707):
rebuild the whole plan with one slide's cut moved, and keep it when it is
the first strictly-smallest duration gap seen. -/
def searchTry (slidesMeta : List SlideMeta) (startLang : Lang)
    (pattern : MixedPattern) (cuts : List (Option ℕ)) (metaIndex currentCut : ℕ)
    (cand : Option (List (Option ℕ) × Plan × ℚ)) (newCut : ℕ) :
    Option (List (Option ℕ) × Plan × ℚ) :=
  if newCut = currentCut then cand
  else
    let testCuts := cuts.set metaIndex (some newCut)
    let testPlan := buildPlan slidesMeta startLang pattern testCuts
    let testDelta := ratAbs (testPlan.enDur - testPlan.frDur)
    match cand with
    | none => some (testCuts, testPlan, testDelta)
    | some c => if testDelta < c.2.2 then some (testCuts, testPlan, testDelta)
                else cand

/-- The adjacent-cut candidate search of one hill-climbing iteration
(lines 1690-1708): over every multi-paragraph slide, try moving its cut by
one in each direction. -/
def searchCandidate (slidesMeta : List SlideMeta) (startLang : Lang)
    (pattern : MixedPattern) (cuts : List (Option ℕ)) :
    Option (List (Option ℕ) × Plan × ℚ) :=
  slidesMeta.foldl (fun cand meta =>
    if meta.totalParas ≤ 1 then cand
    else
      match cuts.getD meta.index none with
      | none => cand
      | some currentCut =>
        let optionsCuts :=
          (if 2 ≤ currentCut then [currentCut - 1] else []) ++
          (if currentCut + 1 ≤ meta.totalParas - 1 then [currentCut + 1] else [])
        optionsCuts.foldl
          (searchTry slidesMeta startLang pattern cuts meta.index currentCut)
          cand) none

/-- The bounded hill-climbing loop (lines 1689-1717), instrumented with the
number of iterations that adopted a change.  The fuel is the JavaScript
iteration budget. -/
def mixedLoop (slidesMeta : List SlideMeta) (startLang : Lang)
    (pattern : MixedPattern) :
    ℕ → List (Option ℕ) → Plan → ℚ → ℕ → Plan × ℚ × ℕ
  | 0, _, plan, bestDelta, used => (plan, bestDelta, used)
  | fuel + 1, cuts, plan, bestDelta, used =>
    match searchCandidate slidesMeta startLang pattern cuts with
    | some c =>
      if c.2.2 + 1 / 1000000 < bestDelta then
        mixedLoop slidesMeta startLang pattern fuel c.1 c.2.1 c.2.2 (used + 1)
      else (plan, bestDelta, used)
    | none => (plan, bestDelta, used)

/-- The final accumulated state of single-slide-language mode. -/
def singleFinalState (enText frText : List Char) (startLang : Lang) :
    SingleState :=
  let enSlides := parseSlides enText
  let frSlides := parseSlides frText
  let totalSlides := natMax enSlides.length frSlides.length
  (List.range totalSlides).foldl
    (singleStep startLang enSlides frSlides totalSlides)
    { enWordsUsed := 0, frWordsUsed := 0, enDur := 0, frDur := 0, slidesOut := [] }

/-- The slide metadata list of mixed mode, from the raw texts. -/
def mixedSlidesMeta (enText frText : List Char) : List SlideMeta :=
  let enSlides := parseSlides enText
  let frSlides := parseSlides frText
  slidesMetaOf enSlides frSlides (natMax enSlides.length frSlides.length)

/-- The initial cut assignment of mixed mode (lines 1682-1683). -/
def mixedInitialCuts (enText frText : List Char) : List (Option ℕ) :=
  let totalSlides := natMax (parseSlides enText).length (parseSlides frText).length
  (mixedSlidesMeta enText frText).foldl
    (fun cuts meta => cuts.set meta.index (some meta.defaultCut))
    (List.replicate totalSlides (none : Option ℕ))

/-- The outcome of the hill-climbing search of mixed mode: final plan, final
best duration gap, and the number of iterations that adopted a change. -/
def mixedSearchResult (enText frText : List Char) (startLang : Lang)
    (pattern : MixedPattern) : Plan × ℚ × ℕ :=
  let slidesMeta := mixedSlidesMeta enText frText
  let cuts0 := mixedInitialCuts enText frText
  let plan0 := buildPlan slidesMeta startLang pattern cuts0
  let bestDelta0 := ratAbs (plan0.enDur - plan0.frDur)
  let maxIterations := natMax 1 (slidesMeta.length * 4)
  mixedLoop slidesMeta startLang pattern maxIterations cuts0 plan0 bestDelta0 0

/-- `mergePresentation` (lines 1517-1726). -/
def mergePresentation (enText frText : List Char) (startLang : Lang)
    (slideMode : SlideMode) (pattern : MixedPattern) : MergeResult :=
  match slideMode with
  | .single =>
    let finalSt := singleFinalState enText frText startLang
    { text := List.intercalate sepSlides finalSt.slidesOut
      enWords := finalSt.enWordsUsed, frWords := finalSt.frWordsUsed
      enDur := finalSt.enDur, frDur := finalSt.frDur }
  | .mixed =>
    let result := mixedSearchResult enText frText startLang pattern
    { text := List.intercalate sepSlides (result.1.slidesOut.map (fun s => s.1))
      enWords := result.1.enWords, frWords := result.1.frWords
      enDur := result.1.enDur, frDur := result.1.frDur }

/-- The claim's per-token clause-pause test: the token ends in `,`, `;`
or `:`. -/
def specClauseToken (w : List Char) : Bool :=
  w.getLast?.any (fun d => d == ',' || d == ';' || d == ':')

/-- The claim's per-sentence unit count: one unit per token, one extra per
clause-pause token, two extra per token that is exactly `#`, two extra if
the sentence ends in `.`, `!` or `?`. -/
def specSentenceUnits (sent : List Char) : ℕ :=
  let ws := tokens (trimChars sent)
  ws.length + ws.countP specClauseToken + 2 * ws.count ['#'] +
    (if (trimChars sent).getLast?.any (fun d => d == '.' || d == '!' || d == '?')
      then 2 else 0)

/-- The claim's total unit count over the cleaned, quote-normalized,
sentence-split text. -/
def specTotalUnits (t : List Char) : ℕ :=
  ((sentSplit (quoteNorm (collapseWs (collapseSeps t)))).map
    (fun s => if trimChars s = [] then 0 else specSentenceUnits s)).sum

/-- C1 spec-side score, worded from the claim: a language with zero words
at this index scores `+∞`; otherwise its score is the absolute difference
between its running word total if chosen and the other language's running
word total, plus an off-streak penalty of
`(targetStreakCount − currentStreakCount) * 2` applied to the language not
currently streaking while the streak has not yet been forced to switch,
plus a penalty of `1,000,000` on the currently streaking language once its
streak count has reached or exceeded `targetStreakCount`. -/
def specScore (targetStreakCount : ℤ) (streakLang : Option Lang)
    (streakCount : ℕ) (runningIfChosen otherRunning : ℤ) (myWords : ℕ)
    (me : Lang) : WithTop ℤ :=
  if myWords = 0 then ⊤
  else
    ((|runningIfChosen - otherRunning| +
      (if streakLang = some me.other ∧ (streakCount : ℤ) < targetStreakCount
        then (targetStreakCount - streakCount) * 2 else 0) +
      (if streakLang = some me ∧ targetStreakCount ≤ (streakCount : ℤ)
        then 1000000 else 0) : ℤ) : WithTop ℤ)

/-- C1 spec-side selection: the lower-scoring language is emitted; on an
exact tie the language currently behind in cumulative word count is chosen
when it has content at the index, otherwise the configured starting
language. -/
def specChoice (targetStreakCount : ℤ) (startLang : Lang)
    (enRunning frRunning : ℤ) (streakLang : Option Lang) (streakCount : ℕ)
    (enWords frWords : ℕ) : Lang :=
  let enScore := specScore targetStreakCount streakLang streakCount
    (enRunning + enWords) frRunning enWords .en
  let frScore := specScore targetStreakCount streakLang streakCount
    (frRunning + frWords) enRunning frWords .fr
  if enScore < frScore then .en
  else if frScore < enScore then .fr
  else if enRunning < frRunning ∧ 0 < enWords then .en
  else if frRunning < enRunning ∧ 0 < frWords then .fr
  else startLang

/-- Proof-side invariant for the equal-word-count analysis of the walk of
`merge` (claim C2).  `k` is the cumulative word gap `enWordsUsed -
frWordsUsed` divided by the common paragraph word count `w`, `c` the
current streak count, and `mathMax 1 (T - w)` the largest number of
consecutive same-language paragraphs the scoring rule can prefer before
the off-streak penalty `(T - c) * 2` falls below the `2 * w` gap-score
difference and forces a switch. -/
def StreakInv (T : ℤ) (w : ℕ) (L : Lang) (k : ℤ) (c : ℕ) : Prop :=
  match L with
  | .en => (c : ℤ) - mathMax 1 (T - (w : ℤ)) ≤ k ∧ k ≤ mathMax 1 (T - (w : ℤ)) ∧
      (1 ≤ k → k ≤ (c : ℤ))
  | .fr => -(mathMax 1 (T - (w : ℤ))) ≤ k ∧ k ≤ mathMax 1 (T - (w : ℤ)) - (c : ℤ) ∧
      (k ≤ -1 → -k ≤ (c : ℤ))

/-- Proof-side invariant carried through the fold of the walk of `merge`
when every paragraph on both sides has exactly `w` words (claim C2). -/
def EqWalkInv (T : ℤ) (w : ℕ) (st : MergeState) : Prop :=
  (st.streakLang = none ∧ st.enWordsUsed = 0 ∧ st.frWordsUsed = 0) ∨
  (∃ L k, st.streakLang = some L ∧ 1 ≤ st.streakCount ∧
    st.enWordsUsed - st.frWordsUsed = k * (w : ℤ) ∧ StreakInv T w L k st.streakCount)

/-- Number of maximal nonwhitespace runs, scanned with a "previous
character was whitespace" state.  On `«`-free text this equals the number
of `\S+` regex tokens. -/
def runCountAux : Bool → List Char → ℕ
  | _, [] => 0
  | prevWs, c :: cs =>
    (if prevWs && !wsChar c then 1 else 0) + runCountAux (wsChar c) cs

def runCount (l : List Char) : ℕ := runCountAux true l

/-! ## Theorems -/

/-! ## C10: content before the first heading line is discarded -/

theorem parseSlidesGo_drop_nonhash (ls : List (List Char)) :
    parseSlidesGo ls none =
      parseSlidesGo (ls.dropWhile (fun l => !isHashLine l)) none := by
  induction ls with
  | nil => rfl
  | cons l ls ih =>
    by_cases h : isHashLine l
    · simp [List.dropWhile, h]
    · have step : parseSlidesGo (l :: ls) none = parseSlidesGo ls none := by
        simp [parseSlidesGo, h]
      rw [step, ih]
      congr 1
      simp [List.dropWhile, h]

/-- C10: `parseSlides` silently discards everything before the first line
matching `^\s*#`: the returned slides are computed from the line list with
the leading non-heading lines dropped, so no earlier line contributes to
any slide's title, body, paragraph list or word count. -/
theorem parseSlides_discards_preheading_lines (t : List Char) :
    parseSlides t =
      (parseSlidesGo ((splitLines t).dropWhile (fun l => !isHashLine l)) none).map
        (fun tb =>
          let paragraphs := parseParagraphs tb.2
          { title := tb.1
            body := trimChars tb.2
            paragraphs := paragraphs
            words := (paragraphs.map countWords).sum }) := by
  unfold parseSlides
  rw [parseSlidesGo_drop_nonhash]

/-! ## C9: inputs with no heading line -/

theorem parseSlidesGo_eq_nil_of_no_hash :
    ∀ ls : List (List Char), (∀ l ∈ ls, isHashLine l = false) →
      parseSlidesGo ls none = [] := by
  intro ls
  induction ls with
  | nil => intro _; rfl
  | cons l ls ih =>
    intro h
    have hl : isHashLine l = false := h l (List.mem_cons_self _ _)
    have : parseSlidesGo (l :: ls) none = parseSlidesGo ls none := by
      simp [parseSlidesGo, hl]
    rw [this]
    exact ih (fun x hx => h x (List.mem_cons_of_mem _ hx))

theorem parseSlides_eq_nil_of_no_hash (t : List Char)
    (h : ∀ l ∈ splitLines t, isHashLine l = false) : parseSlides t = [] := by
  unfold parseSlides
  rw [parseSlidesGo_eq_nil_of_no_hash _ h]
  rfl

/-- C9: if neither input has a line starting with optional whitespace and
`#`, `parseSlides` returns no slides, and `mergePresentation` (either
slide mode, either mixed pattern) still returns a well-formed result with
empty text and zero word and duration totals rather than failing. -/
theorem mergePresentation_no_heading_inputs (t1 t2 : List Char) (startLang : Lang)
    (mode : SlideMode) (pattern : MixedPattern)
    (h1 : ∀ l ∈ splitLines t1, isHashLine l = false)
    (h2 : ∀ l ∈ splitLines t2, isHashLine l = false) :
    parseSlides t1 = [] ∧ parseSlides t2 = [] ∧
    mergePresentation t1 t2 startLang mode pattern =
      { text := [], enWords := 0, frWords := 0, enDur := 0, frDur := 0 } := by
  have e1 := parseSlides_eq_nil_of_no_hash t1 h1
  have e2 := parseSlides_eq_nil_of_no_hash t2 h2
  refine ⟨e1, e2, ?_⟩
  cases mode with
  | single =>
    show ({ text := List.intercalate sepSlides (singleFinalState t1 t2 startLang).slidesOut,
            enWords := (singleFinalState t1 t2 startLang).enWordsUsed,
            frWords := (singleFinalState t1 t2 startLang).frWordsUsed,
            enDur := (singleFinalState t1 t2 startLang).enDur,
            frDur := (singleFinalState t1 t2 startLang).frDur } : MergeResult) = _
    unfold singleFinalState
    rw [e1, e2]
    rfl
  | mixed =>
    show ({ text := List.intercalate sepSlides
              ((mixedSearchResult t1 t2 startLang pattern).1.slidesOut.map (fun s => s.1)),
            enWords := (mixedSearchResult t1 t2 startLang pattern).1.enWords,
            frWords := (mixedSearchResult t1 t2 startLang pattern).1.frWords,
            enDur := (mixedSearchResult t1 t2 startLang pattern).1.enDur,
            frDur := (mixedSearchResult t1 t2 startLang pattern).1.frDur } : MergeResult) = _
    unfold mixedSearchResult mixedSlidesMeta mixedInitialCuts
    rw [e1, e2]
    rfl

/-- Witness for `mergePresentation_no_heading_inputs` at a concrete
marker-free input pair. -/
theorem mergePresentation_no_heading_inputs_witness :
    parseSlides ("plain text\nno markers").data = [] ∧
    parseSlides ("autre texte").data = [] ∧
    mergePresentation ("plain text\nno markers").data ("autre texte").data .en
        .mixed .alternating =
      { text := [], enWords := 0, frWords := 0, enDur := 0, frDur := 0 } :=
  mergePresentation_no_heading_inputs ("plain text\nno markers").data
    ("autre texte").data .en .mixed .alternating (by decide) (by decide)

/-! ## C7: monolingual-slide correction in mixed mode -/

/-- C7: inside `buildPlan`, when every assigned paragraph of a slide landed
in one language and the other language has a nonempty paragraph at the
slide's last paragraph index, that paragraph is appended (in the missing
language) at the end of the slide's paragraph order. -/
theorem fixMonolingual_appends_missing_language (meta : SlideMeta)
    (paraOrder : List ParaChoice) (L : Lang)
    (hne : paraOrder ≠ [])
    (hall : ∀ p ∈ paraOrder, p.lang = L)
    (hmp : ((match L.other with
              | .en => meta.enParas
              | .fr => meta.frParas).getD (meta.totalParas - 1) fillerPara).text ≠ []) :
    fixMonolingual meta paraOrder =
      paraOrder ++
        [{ text := ((match L.other with
                      | .en => meta.enParas
                      | .fr => meta.frParas).getD (meta.totalParas - 1) fillerPara).text
           lang := L.other
           words := ((match L.other with
                      | .en => meta.enParas
                      | .fr => meta.frParas).getD (meta.totalParas - 1) fillerPara).words }] := by
  obtain ⟨p0, hp0⟩ := List.exists_mem_of_ne_nil paraOrder hne
  cases L with
  | en =>
    have hen : paraOrder.all (fun p => p.lang = Lang.en) = true := by
      simp only [List.all_eq_true, decide_eq_true_eq]
      exact hall
    unfold fixMonolingual
    rw [if_pos ⟨hne, Or.inl hen⟩, if_pos hen]
    simp only [Lang.other] at hmp ⊢
    have hmp' : ¬ (meta.frParas[meta.totalParas - 1]?.getD fillerPara).text = [] := by
      simpa [List.getD] using hmp
    simp [hmp']
  | fr =>
    have hfr : paraOrder.all (fun p => p.lang = Lang.fr) = true := by
      simp only [List.all_eq_true, decide_eq_true_eq]
      exact hall
    have hnoten : ¬ (paraOrder.all (fun p => p.lang = Lang.en) = true) := by
      simp only [List.all_eq_true, decide_eq_true_eq]
      intro hcon
      have h1 := hall p0 hp0
      have h2 := hcon p0 hp0
      rw [h1] at h2
      cases h2
    -- the inner `if all-en` test picks the `else` (missing language `en`) branch
    unfold fixMonolingual
    rw [if_pos ⟨hne, Or.inr hfr⟩, if_neg hnoten]
    simp only [Lang.other] at hmp ⊢
    have hmp' : ¬ (meta.enParas[meta.totalParas - 1]?.getD fillerPara).text = [] := by
      simpa [List.getD] using hmp
    simp [hmp']

/-- Witness for `fixMonolingual_appends_missing_language` on a concrete
single-paragraph slide: the slide assigned entirely to English still ends
up exposing the French paragraph. -/
theorem fixMonolingual_appends_missing_language_witness :
    fixMonolingual
        { index := 0
          enSlide := { title := ['#'], body := ['a'], paragraphs := [['a']], words := 1 }
          frSlide := { title := ['#'], body := ['b'], paragraphs := [['b']], words := 1 }
          enParas := [{ text := ['a'], words := 1 }]
          frParas := [{ text := ['b'], words := 1 }]
          totalParas := 1, defaultCut := 1, fallbackTitle := ['#'] }
        [{ text := ['a'], lang := .en, words := 1 }] =
      [{ text := ['a'], lang := .en, words := 1 },
       { text := ['b'], lang := .fr, words := 1 }] := by
  have := fixMonolingual_appends_missing_language
    { index := 0
      enSlide := { title := ['#'], body := ['a'], paragraphs := [['a']], words := 1 }
      frSlide := { title := ['#'], body := ['b'], paragraphs := [['b']], words := 1 }
      enParas := [{ text := ['a'], words := 1 }]
      frParas := [{ text := ['b'], words := 1 }]
      totalParas := 1, defaultCut := 1, fallbackTitle := ['#'] }
    [{ text := ['a'], lang := .en, words := 1 }] .en (by decide)
    (by intro p hp; simp at hp; rw [hp]) (by decide)
  simpa using this

/-! ## C6: the mixed-mode local search is budgeted and strictly improving -/

theorem mixedLoop_progress (slidesMeta : List SlideMeta) (startLang : Lang)
    (pattern : MixedPattern) :
    ∀ (fuel : ℕ) (cuts : List (Option ℕ)) (plan : Plan) (δ : ℚ) (u : ℕ),
      ∃ k,
        (mixedLoop slidesMeta startLang pattern fuel cuts plan δ u).2.2 = u + k ∧
        k ≤ fuel ∧
        (mixedLoop slidesMeta startLang pattern fuel cuts plan δ u).2.1 +
          (k : ℚ) * (1 / 1000000) ≤ δ := by
  intro fuel
  induction fuel with
  | zero =>
    intro cuts plan δ u
    refine ⟨0, rfl, Nat.le_refl 0, ?_⟩
    simp only [mixedLoop]
    simp
  | succ fuel ih =>
    intro cuts plan δ u
    cases hc : searchCandidate slidesMeta startLang pattern cuts with
    | none =>
      simp only [mixedLoop, hc]
      exact ⟨0, rfl, by omega, by simp⟩
    | some c =>
      simp only [mixedLoop, hc]
      by_cases hlt : c.2.2 + 1 / 1000000 < δ
      · rw [if_pos hlt]
        obtain ⟨k, hk1, hk2, hk3⟩ := ih c.1 c.2.1 c.2.2 (u + 1)
        refine ⟨k + 1, by omega, by omega, ?_⟩
        push_cast
        have hexp : ((k : ℚ) + 1) * (1 / 1000000) =
            (k : ℚ) * (1 / 1000000) + 1 / 1000000 := by ring
        rw [hexp]
        linarith
      · rw [if_neg hlt]
        exact ⟨0, rfl, by omega, by simp⟩

/-- C6: the mixed-mode cut-point search performs at most
`max(1, 4 × number of (nonempty) slides)` adopting iterations, and every
iteration that continues lowers the best duration gap by strictly more than
the `1e-6` epsilon: the final gap plus `iterations × 1e-6` still does not
exceed the initial plan's gap. -/
theorem mixedSearch_budget_and_strict_decrease (enText frText : List Char)
    (startLang : Lang) (pattern : MixedPattern) :
    (mixedSearchResult enText frText startLang pattern).2.2 ≤
      natMax 1 ((mixedSlidesMeta enText frText).length * 4) ∧
    (mixedSearchResult enText frText startLang pattern).2.1 +
      ((mixedSearchResult enText frText startLang pattern).2.2 : ℚ) * (1 / 1000000) ≤
      ratAbs ((buildPlan (mixedSlidesMeta enText frText) startLang pattern
                (mixedInitialCuts enText frText)).enDur -
              (buildPlan (mixedSlidesMeta enText frText) startLang pattern
                (mixedInitialCuts enText frText)).frDur) := by
  obtain ⟨k, hk1, hk2, hk3⟩ := mixedLoop_progress (mixedSlidesMeta enText frText)
    startLang pattern (natMax 1 ((mixedSlidesMeta enText frText).length * 4))
    (mixedInitialCuts enText frText)
    (buildPlan (mixedSlidesMeta enText frText) startLang pattern
      (mixedInitialCuts enText frText))
    (ratAbs ((buildPlan (mixedSlidesMeta enText frText) startLang pattern
        (mixedInitialCuts enText frText)).enDur -
      (buildPlan (mixedSlidesMeta enText frText) startLang pattern
        (mixedInitialCuts enText frText)).frDur)) 0
  have hres : mixedSearchResult enText frText startLang pattern =
      mixedLoop (mixedSlidesMeta enText frText) startLang pattern
        (natMax 1 ((mixedSlidesMeta enText frText).length * 4))
        (mixedInitialCuts enText frText)
        (buildPlan (mixedSlidesMeta enText frText) startLang pattern
          (mixedInitialCuts enText frText))
        (ratAbs ((buildPlan (mixedSlidesMeta enText frText) startLang pattern
            (mixedInitialCuts enText frText)).enDur -
          (buildPlan (mixedSlidesMeta enText frText) startLang pattern
            (mixedInitialCuts enText frText)).frDur)) 0 := rfl
  rw [hres]
  constructor
  · omega
  · rw [hk1]
    push_cast
    simpa using hk3

/-! ## C4: the duration estimator computes the specified unit totals -/

theorem wordBonus_sum_eq (ws : List (List Char)) :
    (ws.map wordBonus).sum = ws.countP specClauseToken + 2 * ws.count ['#'] := by
  induction ws with
  | nil => simp
  | cons w ws ih =>
    simp only [List.map_cons, List.sum_cons, List.countP_cons, List.count_cons, ih]
    unfold wordBonus specClauseToken
    by_cases h1 : w.getLast?.any (fun d => d == ',' || d == ';' || d == ':')
    · by_cases h2 : w = ['#'] <;> (simp [h1, h2]; try omega)
    · by_cases h2 : w = ['#'] <;> (simp [h1, h2]; try omega)

theorem sentenceUnits_eq_spec (s : List Char) : sentenceUnits s = specSentenceUnits s := by
  simp only [sentenceUnits, specSentenceUnits, wordBonus_sum_eq]
  omega

/-- C4: on raw text, `estimateDuration` returns exactly
`(totalUnits / 150) * 60` seconds for the specified unit model (one unit
per quote-aware token, `+1` per token ending in `,`/`;`/`:`, `+2` per
token exactly `#`, `+2` per sentence ending in `.`/`!`/`?`, over the
collapsed, quote-normalized, sentence-split text); on a plain integer
count it returns `(count / 150) * 60`. -/
theorem estimateDuration_computes_spec_units :
    (∀ t : List Char,
      estimateDuration (.inr t) = ((specTotalUnits t : ℚ) / 150) * 60) ∧
    (∀ n : ℕ, estimateDuration (.inl n) = ((n : ℚ) / 150) * 60) := by
  constructor
  · intro t
    show estimateDurationText t = _
    simp only [estimateDurationText, specTotalUnits]
    have hmap : List.map (fun s => if (trimChars s).isEmpty = true then 0 else sentenceUnits s)
          (sentSplit (quoteNorm (collapseWs (collapseSeps t)))) =
        List.map (fun s => if trimChars s = [] then 0 else specSentenceUnits s)
          (sentSplit (quoteNorm (collapseWs (collapseSeps t)))) := by
      apply List.map_congr_left
      intro s _
      rw [sentenceUnits_eq_spec]
      by_cases h : trimChars s = []
      · simp [h]
      · simp [h, List.isEmpty_iff]
    rw [hmap]
  · intro n
    rfl

/-! ## C1: the scored choice follows the specified scoring rule -/

theorem chooseLang_eq_specChoice (T : ℤ) (start : Lang) (a b : ℤ) (l : Lang)
    (c : ℕ) (enW frW : ℕ) :
    chooseLang T start a b (some l) c enW frW =
      specChoice T start a b (some l) c enW frW := by
  unfold chooseLang specChoice specScore
  have habs : |a - (b + (frW : ℤ))| = |(b + (frW : ℤ)) - a| := abs_sub_comm _ _
  cases l with
  | en =>
    by_cases hmust : T ≤ (c : ℤ)
    · simp only [Lang.other, intAbs_eq_abs, habs, Option.isSome_some, true_and,
        reduceCtorEq, Option.some.injEq, and_true, false_and, if_false,
        not_le, if_neg (not_lt.mpr hmust), if_pos hmust]
      split_ifs <;> first | rfl | omega
    · simp only [Lang.other, intAbs_eq_abs, habs, Option.isSome_some, true_and,
        reduceCtorEq, Option.some.injEq, and_true, false_and, if_false,
        not_le, if_pos (not_le.mp hmust), if_neg hmust]
      split_ifs <;> first | rfl | omega
  | fr =>
    by_cases hmust : T ≤ (c : ℤ)
    · simp only [Lang.other, intAbs_eq_abs, habs, Option.isSome_some, true_and,
        reduceCtorEq, Option.some.injEq, and_true, false_and, if_false,
        not_le, if_neg (not_lt.mpr hmust), if_pos hmust]
      split_ifs <;> first | rfl | omega
    · simp only [Lang.other, intAbs_eq_abs, habs, Option.isSome_some, true_and,
        reduceCtorEq, Option.some.injEq, and_true, false_and, if_false,
        not_le, if_pos (not_le.mp hmust), if_neg hmust]
      split_ifs <;> first | rfl | omega

/-- C1: at every scored index (a streak exists, so the first paragraph has
already been emitted, and at least one side is nonempty) the walk of
`merge` emits the paragraph of the language selected by the claim's
scoring rule, and the code's selection function agrees with the spec-side
one everywhere. -/
theorem mergeStep_emits_spec_choice (T : ℤ) (start : Lang) (st : MergeState)
    (l : Lang) (enP frP : Para)
    (hstreak : st.streakLang = some l)
    (hne : ¬ (enP.text = [] ∧ frP.text = [])) :
    (mergeStep T start st enP frP).outputParas =
      st.outputParas ++
        [(match specChoice T start st.enWordsUsed st.frWordsUsed st.streakLang
            st.streakCount enP.words frP.words with
          | .en => enP
          | .fr => frP).text] ∧
    chooseLang T start st.enWordsUsed st.frWordsUsed st.streakLang
        st.streakCount enP.words frP.words =
      specChoice T start st.enWordsUsed st.frWordsUsed st.streakLang
        st.streakCount enP.words frP.words := by
  have hC : chooseLang T start st.enWordsUsed st.frWordsUsed st.streakLang
      st.streakCount enP.words frP.words =
      specChoice T start st.enWordsUsed st.frWordsUsed st.streakLang
        st.streakCount enP.words frP.words := by
    rw [hstreak]
    exact chooseLang_eq_specChoice T start st.enWordsUsed st.frWordsUsed l
      st.streakCount enP.words frP.words
  refine ⟨?_, hC⟩
  have hforced : ¬ (st.streakLang = none ∧
      ((start = .en ∧ 0 < enP.words) ∨ (start = .fr ∧ 0 < frP.words))) := by
    rw [hstreak]
    rintro ⟨hcon, -⟩
    cases hcon
  unfold mergeStep
  rw [if_neg hne, if_neg hforced, ← hC]
  cases hch : chooseLang T start st.enWordsUsed st.frWordsUsed st.streakLang
      st.streakCount enP.words frP.words <;>
    · simp only [hch]
      split_ifs <;> rfl

/-- Witness for `mergeStep_emits_spec_choice` at a concrete scored state. -/
theorem mergeStep_emits_spec_choice_witness :
    (mergeStep 2 .en
        { initialMergeState with streakLang := some Lang.en, streakCount := 1,
                                 enWordsUsed := 1 }
        { text := ['x'], words := 1 } { text := ['y'], words := 1 }).outputParas =
      [['y']] ∧
    chooseLang 2 .en 1 0 (some .en) 1 1 1 = specChoice 2 .en 1 0 (some .en) 1 1 1 := by
  have h := mergeStep_emits_spec_choice 2 .en
    { initialMergeState with streakLang := some Lang.en, streakCount := 1,
                             enWordsUsed := 1 }
    Lang.en { text := ['x'], words := 1 } { text := ['y'], words := 1 }
    rfl (by decide)
  obtain ⟨h1, h2⟩ := h
  constructor
  · rw [h1]
    decide
  · exact h2

/-! ## C3: the swap pass corrupts the duration totals (code bug) -/

/-- C3 failing input: `merge("a\n\nb b", "c\n\nd", {startLang: fr})`.  The
swap pass fires, the returned text's only French paragraph is `"d"`
(duration `2/5` s), yet the returned French duration total is `4/5` s: the
swapped-out paragraph's duration was never subtracted, because the pass
reads `lastChoice.text`, a field the walk never stored (and it also
replaced output index 0, the forced first paragraph `"c"`, instead of the
last paragraph). -/
theorem merge_swap_pass_duration_mismatch :
    merge ("a\n\nb b").data ("c\n\nd").data .fr 45 =
      { text := ("b b\n\n***\n\nd").data, enWords := 2, frWords := 1,
        enDur := 4/5, frDur := 4/5 } ∧
    estimateDuration (.inr ("d").data) = 2/5 ∧
    estimateDuration (.inr ("c").data) = 2/5 := by
  refine ⟨?_, ?_, ?_⟩ <;> with_unfolding_all rfl

/-! ## C2: the equal-word-count balance bound -/

/-- C2 counterexample: fourteen one-word paragraphs on each side and a
block time of 2 seconds (`targetStreakCount` = 5).  Both parses have
length 14 with every paragraph of word count `w = 1`, yet the merged word
totals are 8 and 6: they differ by `2 > w`. -/
theorem merge_equal_words_gap_exceeds_one_paragraph :
    (parseParagraphs
      ("a\n\na\n\na\n\na\n\na\n\na\n\na\n\na\n\na\n\na\n\na\n\na\n\na\n\na").data).map
        countWords = List.replicate 14 1 ∧
    (merge ("a\n\na\n\na\n\na\n\na\n\na\n\na\n\na\n\na\n\na\n\na\n\na\n\na\n\na").data
        ("a\n\na\n\na\n\na\n\na\n\na\n\na\n\na\n\na\n\na\n\na\n\na\n\na\n\na").data
        .en 2).enWords = 8 ∧
    (merge ("a\n\na\n\na\n\na\n\na\n\na\n\na\n\na\n\na\n\na\n\na\n\na\n\na\n\na").data
        ("a\n\na\n\na\n\na\n\na\n\na\n\na\n\na\n\na\n\na\n\na\n\na\n\na\n\na").data
        .en 2).frWords = 6 := by
  refine ⟨by decide, ?_, ?_⟩ <;> with_unfolding_all rfl

theorem dropWhile_dropWhile_self (p : Char → Bool) :
    ∀ l : List Char, (l.dropWhile p).dropWhile p = l.dropWhile p := by
  intro l
  induction l with
  | nil => rfl
  | cons c cs ih =>
    by_cases h : p c
    · rw [List.dropWhile_cons_of_pos h, ih]
    · rw [List.dropWhile_cons_of_neg h, List.dropWhile_cons_of_neg h]

theorem head_dropWhile_eq_false (p : Char → Bool) :
    ∀ (l : List Char) (c : Char), (l.dropWhile p).head? = some c → p c = false := by
  intro l
  induction l with
  | nil => intro c h; cases h
  | cons a as ih =>
    intro c h
    by_cases ha : p a
    · rw [List.dropWhile_cons_of_pos ha] at h
      exact ih c h
    · rw [List.dropWhile_cons_of_neg ha] at h
      simp only [List.head?_cons, Option.some.injEq] at h
      subst h
      cases hpa : p a
      · rfl
      · exact absurd hpa ha

theorem dropWhile_eq_self_of_head (p : Char → Bool) (l : List Char)
    (h : ∀ c, l.head? = some c → p c = false) : l.dropWhile p = l := by
  cases l with
  | nil => rfl
  | cons c cs =>
    have hc := h c rfl
    rw [List.dropWhile_cons_of_neg (by simp [hc])]

theorem trimChars_head_ws (l : List Char) (c : Char)
    (h : (trimChars l).head? = some c) : wsChar c = false := by
  have hdecomp : l.dropWhile wsChar = trimChars l ++
      ((l.dropWhile wsChar).reverse.takeWhile wsChar).reverse := by
    unfold trimChars
    rw [← List.reverse_append, List.takeWhile_append_dropWhile, List.reverse_reverse]
  apply head_dropWhile_eq_false wsChar l
  rw [hdecomp]
  cases hv : trimChars l with
  | nil => rw [hv] at h; cases h
  | cons d ds =>
    rw [hv] at h
    simp only [List.head?_cons, Option.some.injEq] at h
    rw [List.cons_append, List.head?_cons, h]

theorem trimChars_idem (l : List Char) : trimChars (trimChars l) = trimChars l := by
  have h1 : (trimChars l).dropWhile wsChar = trimChars l :=
    dropWhile_eq_self_of_head wsChar _ (fun c hc => trimChars_head_ws l c hc)
  have h2 : (trimChars l).reverse.dropWhile wsChar = (trimChars l).reverse := by
    unfold trimChars
    rw [List.reverse_reverse, dropWhile_dropWhile_self]
  show (((trimChars l).dropWhile wsChar).reverse.dropWhile wsChar).reverse = trimChars l
  rw [h1, h2, List.reverse_reverse]

theorem tokensGo_pos (fuel : ℕ) (c : Char) (cs : List Char) (h : wsChar c = false) :
    1 ≤ (tokensGo (fuel + 1) (c :: cs)).length := by
  simp only [tokensGo]
  rw [if_neg (by simp [h])]
  split <;> (simp only [List.length_cons]; omega)

theorem mem_parseParagraphs_ne_nil (t : List Char) :
    ∀ p ∈ parseParagraphs t, p ≠ [] := by
  intro p hp hnil
  unfold parseParagraphs at hp
  rw [List.mem_filter] at hp
  rw [hnil] at hp
  simp at hp

theorem countWords_pos_of_mem_parseParagraphs (t : List Char) :
    ∀ p ∈ parseParagraphs t, 1 ≤ countWords p := by
  intro p hp
  unfold parseParagraphs at hp
  rw [List.mem_filter] at hp
  obtain ⟨hmem, hne⟩ := hp
  rw [List.mem_map] at hmem
  obtain ⟨q, hq, rfl⟩ := hmem
  have hpe : trimChars q ≠ [] := by
    intro h
    rw [h] at hne
    simp at hne
  unfold countWords tokens
  rw [trimChars_idem]
  cases hv : trimChars q with
  | nil => exact absurd hv hpe
  | cons c cs =>
    have hc : wsChar c = false := trimChars_head_ws q c (by rw [hv]; rfl)
    exact tokensGo_pos cs.length c cs hc

theorem one_le_mathMax_one (x : ℤ) : 1 ≤ mathMax 1 x := by
  unfold mathMax
  split <;> omega

theorem le_mathMax_one (x : ℤ) : x ≤ mathMax 1 x := by
  unfold mathMax
  split <;> omega

theorem mathMax_one_le_of (x y : ℤ) (h1 : 1 ≤ y) (h2 : x ≤ y) : mathMax 1 x ≤ y := by
  unfold mathMax
  split <;> omega

theorem mathMax_one_cases (x : ℤ) : mathMax 1 x = 1 ∨ mathMax 1 x = x := by
  unfold mathMax
  split
  · exact Or.inr rfl
  · exact Or.inl rfl

theorem one_le_clampInt_two (v m : ℤ) : 1 ≤ clampInt v 1 (mathMax 2 m) := by
  unfold clampInt mathMin mathMax
  split_ifs <;> omega

theorem one_le_mathMax_two (x : ℤ) : 1 ≤ mathMax 2 x := by
  unfold mathMax
  split <;> omega

theorem one_le_targetStreak_shape (q : ℚ) (base v m : ℤ) :
    1 ≤ (if q = 0 then (if 0 < base then mathMax 2 m else 1)
         else clampInt v 1 (mathMax 2 m)) := by
  split_ifs
  · exact one_le_mathMax_two _
  · omega
  · exact one_le_clampInt_two _ _

theorem one_le_targetStreakOf (e f : List Char) (bt : ℤ) :
    1 ≤ targetStreakOf e f bt := by
  unfold targetStreakOf
  dsimp only
  exact one_le_targetStreak_shape _ _ _ _

theorem chooseLang_not_en_of_ahead (T : ℤ) (start : Lang) (a b : ℤ) (c w : ℕ)
    (hw : 1 ≤ w) (hg : (w : ℤ) ≤ a - b) (hTc : T - (c : ℤ) ≤ (w : ℤ)) :
    chooseLang T start a b (some .en) c w w ≠ .en := by
  intro hch
  have hw0 : ¬ (w = 0) := by omega
  unfold chooseLang at hch
  by_cases hms : T ≤ (c : ℤ)
  · simp only [Option.isSome_some, true_and, Option.some.injEq, reduceCtorEq,
      false_and, if_false, not_le, if_neg (not_lt.mpr hms), if_pos hms,
      if_neg hw0, WithTop.coe_lt_coe, intAbs, add_zero] at hch
    split_ifs at hch <;> first | exact Lang.noConfusion hch | omega
  · simp only [Option.isSome_some, true_and, Option.some.injEq, reduceCtorEq,
      false_and, if_false, not_le, if_pos (not_le.mp hms), if_neg hms,
      if_neg hw0, WithTop.coe_lt_coe, intAbs, add_zero] at hch
    split_ifs at hch <;> first | exact Lang.noConfusion hch | omega

theorem chooseLang_not_fr_of_behind_en (T : ℤ) (start : Lang) (a b : ℤ) (c w : ℕ)
    (hw : 1 ≤ w) (hg : a - b ≤ -(w : ℤ)) (hcT : (c : ℤ) < T) :
    chooseLang T start a b (some .en) c w w ≠ .fr := by
  intro hch
  have hw0 : ¬ (w = 0) := by omega
  unfold chooseLang at hch
  by_cases hms : T ≤ (c : ℤ)
  · exact absurd hms (not_le.mpr hcT)
  · simp only [Option.isSome_some, true_and, Option.some.injEq, reduceCtorEq,
      false_and, if_false, not_le, if_pos (not_le.mp hms), if_neg hms,
      if_neg hw0, WithTop.coe_lt_coe, intAbs, add_zero] at hch
    split_ifs at hch <;> first | exact Lang.noConfusion hch | omega

theorem chooseLang_not_fr_of_behind (T : ℤ) (start : Lang) (a b : ℤ) (c w : ℕ)
    (hw : 1 ≤ w) (hg : a - b ≤ -(w : ℤ)) (hTc : T - (c : ℤ) ≤ (w : ℤ)) :
    chooseLang T start a b (some .fr) c w w ≠ .fr := by
  intro hch
  have hw0 : ¬ (w = 0) := by omega
  unfold chooseLang at hch
  by_cases hms : T ≤ (c : ℤ)
  · simp only [Option.isSome_some, true_and, Option.some.injEq, reduceCtorEq,
      false_and, if_false, not_le, if_neg (not_lt.mpr hms), if_pos hms,
      if_neg hw0, WithTop.coe_lt_coe, intAbs, add_zero] at hch
    split_ifs at hch <;> first | exact Lang.noConfusion hch | omega
  · simp only [Option.isSome_some, true_and, Option.some.injEq, reduceCtorEq,
      false_and, if_false, not_le, if_pos (not_le.mp hms), if_neg hms,
      if_neg hw0, WithTop.coe_lt_coe, intAbs, add_zero] at hch
    split_ifs at hch <;> first | exact Lang.noConfusion hch | omega

theorem chooseLang_not_en_of_ahead_fr (T : ℤ) (start : Lang) (a b : ℤ) (c w : ℕ)
    (hw : 1 ≤ w) (hg : (w : ℤ) ≤ a - b) (hcT : (c : ℤ) < T) :
    chooseLang T start a b (some .fr) c w w ≠ .en := by
  intro hch
  have hw0 : ¬ (w = 0) := by omega
  unfold chooseLang at hch
  by_cases hms : T ≤ (c : ℤ)
  · exact absurd hms (not_le.mpr hcT)
  · simp only [Option.isSome_some, true_and, Option.some.injEq, reduceCtorEq,
      false_and, if_false, not_le, if_pos (not_le.mp hms), if_neg hms,
      if_neg hw0, WithTop.coe_lt_coe, intAbs, add_zero] at hch
    split_ifs at hch <;> first | exact Lang.noConfusion hch | omega

theorem mergeStep_eqWalkInv (T : ℤ) (start : Lang) (w : ℕ)
    (hw : 1 ≤ w) (hT : 1 ≤ T) (st : MergeState) (enP frP : Para)
    (henW : enP.words = w) (hfrW : frP.words = w)
    (henT : enP.text ≠ []) (hfrT : frP.text ≠ [])
    (hinv : EqWalkInv T w st) :
    EqWalkInv T w (mergeStep T start st enP frP) := by
  obtain ⟨a, b, enD, frD, dS, sL, sD, sC, oP, ch⟩ := st
  have hne : ¬ (enP.text = [] ∧ frP.text = []) := fun h => henT h.1
  have hM1 := one_le_mathMax_one (T - (w : ℤ))
  have hMTw := le_mathMax_one (T - (w : ℤ))
  have hMcases := mathMax_one_cases (T - (w : ℤ))
  have hwz : (0 : ℤ) ≤ (w : ℤ) := Nat.cast_nonneg w
  unfold EqWalkInv at hinv ⊢
  dsimp only at hinv
  rcases hinv with ⟨hsl, ha, hb⟩ | ⟨L, k, hsl, hc, hk, hSI⟩
  · subst hsl; subst ha; subst hb
    have hcond : (none : Option Lang) = none ∧
        ((start = Lang.en ∧ 0 < enP.words) ∨ (start = Lang.fr ∧ 0 < frP.words)) := by
      refine ⟨rfl, ?_⟩
      cases start
      · exact Or.inl ⟨rfl, by omega⟩
      · exact Or.inr ⟨rfl, by omega⟩
    unfold mergeStep
    dsimp only
    rw [if_neg hne, if_pos hcond]
    cases start
    · dsimp only
      refine Or.inr ⟨.en, 1, rfl, le_refl 1, ?_, ?_⟩
      · rw [henW]; ring
      · simp only [StreakInv]
        refine ⟨?_, ?_, ?_⟩
        · push_cast; omega
        · push_cast; omega
        · intro h4; push_cast; try omega
    · dsimp only
      refine Or.inr ⟨.fr, -1, rfl, le_refl 1, ?_, ?_⟩
      · rw [hfrW]; ring
      · simp only [StreakInv]
        refine ⟨?_, ?_, ?_⟩
        · push_cast; omega
        · push_cast; omega
        · intro h4; push_cast; try omega
  · subst hsl
    have hforced : ¬ ((some L : Option Lang) = none ∧
        ((start = Lang.en ∧ 0 < enP.words) ∨ (start = Lang.fr ∧ 0 < frP.words))) :=
      fun h => Option.noConfusion h.1
    unfold mergeStep
    dsimp only
    rw [if_neg hne, if_neg hforced, henW, hfrW]
    cases L
    · cases hch : chooseLang T start a b (some Lang.en) sC w w
      · -- the English streak continues
        dsimp only
        rw [if_pos rfl]
        dsimp only
        simp only [StreakInv] at hSI
        obtain ⟨h1, h2, h3⟩ := hSI
        have hub : k + 1 ≤ mathMax 1 (T - (w : ℤ)) := by
          by_contra hcon
          have hk1 : 1 ≤ k := by omega
          have hkc : k ≤ (sC : ℤ) := h3 hk1
          have hmul := mul_le_mul_of_nonneg_right hk1 hwz
          rw [one_mul] at hmul
          have hgw : (w : ℤ) ≤ a - b := by linarith [hk]
          have hTc : T - (sC : ℤ) ≤ (w : ℤ) := by omega
          exact chooseLang_not_en_of_ahead T start a b sC w hw hgw hTc hch
        refine Or.inr ⟨.en, k + 1, rfl, by omega, by rw [henW]; linear_combination hk, ?_⟩
        simp only [StreakInv]
        refine ⟨?_, hub, ?_⟩
        · push_cast; omega
        · intro h4
          rcases le_or_lt 1 k with h5 | h5
          · have h6 := h3 h5
            push_cast; omega
          · push_cast; omega
      · -- the English streak breaks: French is emitted
        dsimp only
        rw [if_neg (show ¬ ((some Lang.en : Option Lang) = some Lang.fr) by decide)]
        dsimp only
        simp only [StreakInv] at hSI
        obtain ⟨h1, h2, h3⟩ := hSI
        have hnn : 0 ≤ k := by
          by_contra hcon
          have hk1 : k ≤ -1 := by omega
          have hcT : (sC : ℤ) < T := by omega
          have hmul := mul_le_mul_of_nonneg_right hk1 hwz
          rw [neg_one_mul] at hmul
          have hgle : a - b ≤ -(w : ℤ) := by linarith [hk]
          exact chooseLang_not_fr_of_behind_en T start a b sC w hw hgle hcT hch
        refine Or.inr ⟨.fr, k - 1, rfl, le_refl 1, by rw [hfrW]; linear_combination hk, ?_⟩
        simp only [StreakInv]
        refine ⟨?_, ?_, ?_⟩
        · push_cast; omega
        · push_cast; omega
        · intro h4; push_cast; try omega
    · cases hch : chooseLang T start a b (some Lang.fr) sC w w
      · -- the French streak breaks: English is emitted
        dsimp only
        rw [if_neg (show ¬ ((some Lang.fr : Option Lang) = some Lang.en) by decide)]
        dsimp only
        simp only [StreakInv] at hSI
        obtain ⟨h1, h2, h3⟩ := hSI
        have hnp : k ≤ 0 := by
          by_contra hcon
          have hk1 : 1 ≤ k := by omega
          have hcT : (sC : ℤ) < T := by omega
          have hmul := mul_le_mul_of_nonneg_right hk1 hwz
          rw [one_mul] at hmul
          have hgw : (w : ℤ) ≤ a - b := by linarith [hk]
          exact chooseLang_not_en_of_ahead_fr T start a b sC w hw hgw hcT hch
        refine Or.inr ⟨.en, k + 1, rfl, le_refl 1, by rw [henW]; linear_combination hk, ?_⟩
        simp only [StreakInv]
        refine ⟨?_, ?_, ?_⟩
        · push_cast; omega
        · push_cast; omega
        · intro h4; push_cast; try omega
      · -- the French streak continues
        dsimp only
        rw [if_pos rfl]
        dsimp only
        simp only [StreakInv] at hSI
        obtain ⟨h1, h2, h3⟩ := hSI
        have hlb : -(mathMax 1 (T - (w : ℤ))) ≤ k - 1 := by
          by_contra hcon
          have hk1 : k ≤ -1 := by omega
          have hkc : -k ≤ (sC : ℤ) := h3 hk1
          have hTc : T - (sC : ℤ) ≤ (w : ℤ) := by omega
          have hmul := mul_le_mul_of_nonneg_right hk1 hwz
          rw [neg_one_mul] at hmul
          have hgle : a - b ≤ -(w : ℤ) := by linarith [hk]
          exact chooseLang_not_fr_of_behind T start a b sC w hw hgle hTc hch
        refine Or.inr ⟨.fr, k - 1, rfl, by omega, by rw [hfrW]; linear_combination hk, ?_⟩
        simp only [StreakInv]
        refine ⟨hlb, ?_, ?_⟩
        · push_cast; omega
        · intro h4
          rcases le_or_lt k (-1) with h5 | h5
          · have h6 := h3 h5
            push_cast; omega
          · push_cast; omega

theorem merge_walk_eqWalkInv (T : ℤ) (start : Lang) (w : ℕ)
    (hw : 1 ≤ w) (hT : 1 ≤ T) (enPs frPs : List Para)
    (hen : ∀ p ∈ enPs, p.words = w ∧ p.text ≠ [])
    (hfr : ∀ p ∈ frPs, p.words = w ∧ p.text ≠ []) :
    ∀ (idxs : List ℕ) (st : MergeState),
      (∀ i ∈ idxs, i < enPs.length ∧ i < frPs.length) →
      EqWalkInv T w st →
      EqWalkInv T w (idxs.foldl (fun st i => mergeStep T start st
        (enPs.getD i fillerPara) (frPs.getD i fillerPara)) st) := by
  intro idxs
  induction idxs with
  | nil => intro st _ h; exact h
  | cons i is ih =>
    intro st hidx hst
    simp only [List.foldl_cons]
    apply ih _ (fun j hj => hidx j (List.mem_cons_of_mem _ hj))
    have hi := hidx i (List.mem_cons_self _ _)
    have henP : enPs.getD i fillerPara ∈ enPs := by
      rw [List.getD_eq_getElem _ _ hi.1]
      exact List.getElem_mem _
    have hfrP : frPs.getD i fillerPara ∈ frPs := by
      rw [List.getD_eq_getElem _ _ hi.2]
      exact List.getElem_mem _
    exact mergeStep_eqWalkInv T start w hw hT st _ _ (hen _ henP).1 (hfr _ hfrP).1
      (hen _ henP).2 (hfr _ hfrP).2 hst

theorem mergeSwapPass_gap_le (st : MergeState) :
    intAbs ((mergeSwapPass st).enWordsUsed - (mergeSwapPass st).frWordsUsed) ≤
      intAbs (st.enWordsUsed - st.frWordsUsed) := by
  unfold mergeSwapPass
  by_cases h1 : st.choices = []
  · rw [if_pos h1]
  · rw [if_neg h1]
    cases hlast : st.choices.getLast? with
    | none => exact le_refl _
    | some lc =>
      dsimp only
      cases hlang : lc.lang
      · dsimp only
        split_ifs with h2 h3
        · dsimp only
          exact le_of_lt h3
        · exact le_refl _
        · exact le_refl _
      · dsimp only
        split_ifs with h2 h3
        · dsimp only
          exact le_of_lt h3
        · exact le_refl _
        · exact le_refl _

theorem eqWalkInv_gap_le (T : ℤ) (w : ℕ) (hT : 1 ≤ T) (st : MergeState)
    (h : EqWalkInv T w st) :
    intAbs (st.enWordsUsed - st.frWordsUsed) ≤ T * (w : ℤ) := by
  unfold EqWalkInv at h
  rcases h with ⟨-, ha, hb⟩ | ⟨L, k, -, hc, hk, hSI⟩
  · rw [ha, hb]
    have h1 : intAbs (0 - 0) = 0 := by decide
    rw [h1]
    exact mul_nonneg (by omega) (Nat.cast_nonneg w)
  · rw [hk]
    have hM1 := one_le_mathMax_one (T - (w : ℤ))
    have hMT : mathMax 1 (T - (w : ℤ)) ≤ T :=
      mathMax_one_le_of _ _ hT (by omega)
    have hbound : -T ≤ k ∧ k ≤ T := by
      cases L <;> (simp only [StreakInv] at hSI; omega)
    have hle1 : k * (w : ℤ) ≤ T * (w : ℤ) :=
      mul_le_mul_of_nonneg_right hbound.2 (Nat.cast_nonneg w)
    have hle2 : -(k * (w : ℤ)) ≤ T * (w : ℤ) := by
      have h3 := mul_le_mul_of_nonneg_right (show -k ≤ T by omega) (Nat.cast_nonneg w)
      rw [neg_mul] at h3
      exact h3
    unfold intAbs
    split <;> linarith

/-- C2 (amended): when the two input texts parse into the same number
`n ≥ 1` of paragraphs and every paragraph on both sides has the same word
count `w`, the word totals of `merge` differ by at most
`targetStreakCount * w` (the computed target streak length times one
paragraph's word count) — not by at most `w`. -/
theorem merge_equal_words_gap_le_target_streak
    (enText frText : List Char) (startLang : Lang) (blockTime : ℤ) (n w : ℕ)
    (hn : 1 ≤ n)
    (hlenEn : (parseParagraphs enText).length = n)
    (hlenFr : (parseParagraphs frText).length = n)
    (hwEn : ∀ p ∈ parseParagraphs enText, countWords p = w)
    (hwFr : ∀ p ∈ parseParagraphs frText, countWords p = w) :
    intAbs ((merge enText frText startLang blockTime).enWords -
        (merge enText frText startLang blockTime).frWords) ≤
      targetStreakOf enText frText blockTime * (w : ℤ) := by
  have hple : parseParagraphs enText ≠ [] := by
    intro h
    rw [h] at hlenEn
    simp only [List.length_nil] at hlenEn
    omega
  obtain ⟨p0, hp0⟩ := List.exists_mem_of_ne_nil _ hple
  have hw1 : 1 ≤ w := by
    have hpos := countWords_pos_of_mem_parseParagraphs enText p0 hp0
    rw [hwEn p0 hp0] at hpos
    exact hpos
  have hT : 1 ≤ targetStreakOf enText frText blockTime :=
    one_le_targetStreakOf _ _ _
  have hparaEn : ∀ p ∈ mergeParas enText, p.words = w ∧ p.text ≠ [] := by
    intro p hp
    unfold mergeParas at hp
    rw [List.mem_map] at hp
    obtain ⟨q, hq, rfl⟩ := hp
    exact ⟨hwEn q hq, mem_parseParagraphs_ne_nil enText q hq⟩
  have hparaFr : ∀ p ∈ mergeParas frText, p.words = w ∧ p.text ≠ [] := by
    intro p hp
    unfold mergeParas at hp
    rw [List.mem_map] at hp
    obtain ⟨q, hq, rfl⟩ := hp
    exact ⟨hwFr q hq, mem_parseParagraphs_ne_nil frText q hq⟩
  have hlen1 : (mergeParas enText).length = n := by
    unfold mergeParas
    rw [List.length_map, hlenEn]
  have hlen2 : (mergeParas frText).length = n := by
    unfold mergeParas
    rw [List.length_map, hlenFr]
  have hidx : ∀ i ∈ List.range
      (natMax (mergeParas enText).length (mergeParas frText).length),
      i < (mergeParas enText).length ∧ i < (mergeParas frText).length := by
    intro i hi
    rw [List.mem_range] at hi
    rw [hlen1, hlen2] at hi ⊢
    unfold natMax at hi
    rw [if_neg (lt_irrefl n)] at hi
    exact ⟨hi, hi⟩
  have hfin : intAbs ((mergeFinalState enText frText startLang blockTime).enWordsUsed -
      (mergeFinalState enText frText startLang blockTime).frWordsUsed) ≤
      targetStreakOf enText frText blockTime * (w : ℤ) := by
    unfold mergeFinalState
    refine le_trans (mergeSwapPass_gap_le _) ?_
    refine eqWalkInv_gap_le _ _ hT _ ?_
    refine merge_walk_eqWalkInv _ startLang _ hw1 hT _ _ hparaEn hparaFr _ _ hidx ?_
    unfold EqWalkInv
    exact Or.inl ⟨rfl, rfl, rfl⟩
  have hEn : (merge enText frText startLang blockTime).enWords =
      (mergeFinalState enText frText startLang blockTime).enWordsUsed := rfl
  have hFr : (merge enText frText startLang blockTime).frWords =
      (mergeFinalState enText frText startLang blockTime).frWordsUsed := rfl
  rw [hEn, hFr]
  exact hfin

/-- Witness for `merge_equal_words_gap_le_target_streak` at two two-paragraph
texts of one-word paragraphs. -/
theorem merge_equal_words_gap_le_target_streak_witness :
    intAbs ((merge ("a\n\nb").data ("c\n\nd").data .en 45).enWords -
        (merge ("a\n\nb").data ("c\n\nd").data .en 45).frWords) ≤
      targetStreakOf ("a\n\nb").data ("c\n\nd").data 45 * ((1 : ℕ) : ℤ) :=
  merge_equal_words_gap_le_target_streak ("a\n\nb").data ("c\n\nd").data .en 45 2 1
    (by decide) (by decide) (by decide) (by decide) (by decide)

/-! ## C5: output segment counts -/

theorem mergeStep_output_length (T : ℤ) (start : Lang) (st : MergeState)
    (enP frP : Para) :
    (mergeStep T start st enP frP).outputParas.length =
      st.outputParas.length +
        (if enP.text = [] ∧ frP.text = [] then 0 else 1) := by
  unfold mergeStep
  by_cases h : enP.text = [] ∧ frP.text = []
  · rw [if_pos h, if_pos h]
    omega
  · rw [if_neg h, if_neg h]
    by_cases h2 : st.streakLang = none ∧
        ((start = .en ∧ 0 < enP.words) ∨ (start = .fr ∧ 0 < frP.words))
    · rw [if_pos h2]
      cases start <;> simp
    · rw [if_neg h2]
      dsimp only
      cases chooseLang T start st.enWordsUsed st.frWordsUsed st.streakLang
          st.streakCount enP.words frP.words <;>
        (dsimp only; split <;> simp)

theorem merge_walk_output_length (T : ℤ) (start : Lang)
    (enPs frPs : List Para) (idxs : List ℕ) :
    ∀ st : MergeState,
      ((idxs.foldl (fun st i => mergeStep T start st
          (enPs.getD i fillerPara) (frPs.getD i fillerPara)) st).outputParas).length =
      st.outputParas.length +
        idxs.countP (fun i => !((enPs.getD i fillerPara).text.isEmpty &&
                                (frPs.getD i fillerPara).text.isEmpty)) := by
  induction idxs with
  | nil => intro st; simp
  | cons i idxs ih =>
    intro st
    simp only [List.foldl_cons, List.countP_cons, ih]
    rw [mergeStep_output_length]
    by_cases h : (enPs.getD i fillerPara).text = [] ∧ (frPs.getD i fillerPara).text = []
    · rw [if_pos h]
      have hpred : (!((enPs.getD i fillerPara).text.isEmpty &&
          (frPs.getD i fillerPara).text.isEmpty)) = false := by
        rw [h.1, h.2]; rfl
      rw [hpred]
      simp
    · rw [if_neg h]
      have hpred : (!((enPs.getD i fillerPara).text.isEmpty &&
          (frPs.getD i fillerPara).text.isEmpty)) = true := by
        rcases Decidable.not_and_iff_or_not.mp h with h1 | h1
        · cases hx : (enPs.getD i fillerPara).text with
          | nil => exact absurd hx h1
          | cons a l => rfl
        · cases hx : (frPs.getD i fillerPara).text with
          | nil => exact absurd hx h1
          | cons a l => simp
      rw [hpred]
      simp
      try omega

theorem mergeSwapPass_output_length (st : MergeState) :
    (mergeSwapPass st).outputParas.length = st.outputParas.length := by
  unfold mergeSwapPass
  split_ifs with h1
  · rfl
  · cases hl : st.choices.getLast? with
    | none => rfl
    | some lastChoice =>
      simp only
      split_ifs with h2 h3
      · cases lastChoice.lang <;> simp [List.length_set]
      · rfl
      · rfl

theorem singleEmit_slides_length (st : SingleState) (slideText : List Char)
    (dur : ℚ) (lang : Lang) (words : ℕ) :
    (singleEmit st slideText dur lang words).slidesOut.length =
      st.slidesOut.length + 1 := by
  cases lang <;> simp [singleEmit]

theorem singleStep_slides_length (start : Lang) (enS frS : List Slide)
    (total : ℕ) (st : SingleState) (i : ℕ) :
    (singleStep start enS frS total st i).slidesOut.length =
      st.slidesOut.length +
        (if natMax (enS.getD i (fillerSlide i)).paragraphs.length
            (frS.getD i (fillerSlide i)).paragraphs.length = 0 then 0 else 1) := by
  unfold singleStep
  by_cases h : natMax (enS.getD i (fillerSlide i)).paragraphs.length
      (frS.getD i (fillerSlide i)).paragraphs.length = 0
  · rw [if_pos h, if_pos h]
    omega
  · rw [if_neg h, if_neg h]
    dsimp only
    rw [singleEmit_slides_length]

theorem single_walk_slides_length (start : Lang) (enS frS : List Slide)
    (total : ℕ) (idxs : List ℕ) :
    ∀ st : SingleState,
      ((idxs.foldl (singleStep start enS frS total) st).slidesOut).length =
      st.slidesOut.length +
        idxs.countP (fun i => !(natMax (enS.getD i (fillerSlide i)).paragraphs.length
            (frS.getD i (fillerSlide i)).paragraphs.length == 0)) := by
  induction idxs with
  | nil => intro st; simp
  | cons i idxs ih =>
    intro st
    simp only [List.foldl_cons, List.countP_cons, ih]
    rw [singleStep_slides_length]
    by_cases h : natMax (enS.getD i (fillerSlide i)).paragraphs.length
        (frS.getD i (fillerSlide i)).paragraphs.length = 0
    · rw [if_pos h]
      have hpred : (!(natMax (enS.getD i (fillerSlide i)).paragraphs.length
          (frS.getD i (fillerSlide i)).paragraphs.length == 0)) = false := by
        rw [h]; rfl
      rw [hpred]
      simp
      try omega
    · rw [if_neg h]
      have hpred : (!(natMax (enS.getD i (fillerSlide i)).paragraphs.length
          (frS.getD i (fillerSlide i)).paragraphs.length == 0)) = true := by
        cases hx : natMax (enS.getD i (fillerSlide i)).paragraphs.length
            (frS.getD i (fillerSlide i)).paragraphs.length with
        | zero => exact absurd hx h
        | succ n => rfl
      rw [hpred]
      simp
      try omega

theorem buildPlanStep_slides_length (startLang : Lang) (pattern : MixedPattern)
    (cuts : List (Option ℕ)) (acc : Plan × Lang) (meta : SlideMeta) :
    ((buildPlanStep startLang pattern cuts acc meta).1.slidesOut).length =
      acc.1.slidesOut.length + 1 := by
  unfold buildPlanStep
  simp

theorem buildPlan_foldl_slides_length (startLang : Lang) (pattern : MixedPattern)
    (cuts : List (Option ℕ)) (ms : List SlideMeta) :
    ∀ acc : Plan × Lang,
      ((ms.foldl (buildPlanStep startLang pattern cuts) acc).1.slidesOut).length =
      acc.1.slidesOut.length + ms.length := by
  induction ms with
  | nil => intro acc; simp
  | cons m ms ih =>
    intro acc
    rw [List.foldl_cons, ih, buildPlanStep_slides_length]
    simp [List.length_cons]
    try omega

theorem buildPlan_slides_length (slidesMeta : List SlideMeta) (startLang : Lang)
    (pattern : MixedPattern) (cuts : List (Option ℕ)) :
    (buildPlan slidesMeta startLang pattern cuts).slidesOut.length =
      slidesMeta.length := by
  unfold buildPlan
  rw [buildPlan_foldl_slides_length]
  simp

/-- Every candidate plan produced by a probe of the search is a whole-plan
rebuild. -/
def IsRebuild (slidesMeta : List SlideMeta) (startLang : Lang)
    (pattern : MixedPattern) (cand : Option (List (Option ℕ) × Plan × ℚ)) : Prop :=
  ∀ c, cand = some c → ∃ cuts', c.2.1 = buildPlan slidesMeta startLang pattern cuts'

theorem searchTry_rebuild (slidesMeta : List SlideMeta) (startLang : Lang)
    (pattern : MixedPattern) (cuts : List (Option ℕ)) (metaIndex currentCut : ℕ)
    (cand : Option (List (Option ℕ) × Plan × ℚ)) (newCut : ℕ)
    (h : IsRebuild slidesMeta startLang pattern cand) :
    IsRebuild slidesMeta startLang pattern
      (searchTry slidesMeta startLang pattern cuts metaIndex currentCut cand newCut) := by
  unfold searchTry
  by_cases hnc : newCut = currentCut
  · rw [if_pos hnc]; exact h
  · rw [if_neg hnc]
    cases cand with
    | none =>
      intro c hc
      simp only at hc
      cases hc
      exact ⟨cuts.set metaIndex (some newCut), rfl⟩
    | some c0 =>
      simp only
      split_ifs with hδ
      · intro c hc
        cases hc
        exact ⟨cuts.set metaIndex (some newCut), rfl⟩
      · exact h

theorem searchTry_foldl_rebuild (slidesMeta : List SlideMeta) (startLang : Lang)
    (pattern : MixedPattern) (cuts : List (Option ℕ)) (metaIndex currentCut : ℕ)
    (opts : List ℕ) :
    ∀ cand, IsRebuild slidesMeta startLang pattern cand →
      IsRebuild slidesMeta startLang pattern
        (opts.foldl (searchTry slidesMeta startLang pattern cuts metaIndex currentCut)
          cand) := by
  induction opts with
  | nil => intro cand h; exact h
  | cons o os ih =>
    intro cand h
    rw [List.foldl_cons]
    exact ih _ (searchTry_rebuild _ _ _ _ _ _ _ _ h)

theorem searchCandidate_foldl_rebuild (slidesMeta : List SlideMeta)
    (startLang : Lang) (pattern : MixedPattern) (cuts : List (Option ℕ)) :
    ∀ (ms : List SlideMeta) (cand : Option (List (Option ℕ) × Plan × ℚ)),
      IsRebuild slidesMeta startLang pattern cand →
      IsRebuild slidesMeta startLang pattern
        (ms.foldl (fun cand meta =>
          if meta.totalParas ≤ 1 then cand
          else
            match cuts.getD meta.index none with
            | none => cand
            | some currentCut =>
              let optionsCuts :=
                (if 2 ≤ currentCut then [currentCut - 1] else []) ++
                (if currentCut + 1 ≤ meta.totalParas - 1 then [currentCut + 1] else [])
              optionsCuts.foldl
                (searchTry slidesMeta startLang pattern cuts meta.index currentCut)
                cand) cand) := by
  intro ms
  induction ms with
  | nil => intro cand h; exact h
  | cons m ms ih =>
    intro cand h
    rw [List.foldl_cons]
    apply ih
    by_cases h1 : m.totalParas ≤ 1
    · rw [if_pos h1]; exact h
    · rw [if_neg h1]
      cases hcur : cuts.getD m.index none with
      | none => simp only [hcur]; exact h
      | some currentCut =>
        simp only [hcur]
        exact searchTry_foldl_rebuild _ _ _ _ _ _ _ _ h

theorem searchCandidate_rebuild (slidesMeta : List SlideMeta) (startLang : Lang)
    (pattern : MixedPattern) (cuts : List (Option ℕ)) :
    IsRebuild slidesMeta startLang pattern
      (searchCandidate slidesMeta startLang pattern cuts) := by
  unfold searchCandidate
  exact searchCandidate_foldl_rebuild slidesMeta startLang pattern cuts slidesMeta
    none (fun c hc => by cases hc)

theorem mixedLoop_plan_length (slidesMeta : List SlideMeta) (startLang : Lang)
    (pattern : MixedPattern) :
    ∀ (fuel : ℕ) (cuts : List (Option ℕ)) (plan : Plan) (δ : ℚ) (u : ℕ),
      plan.slidesOut.length = slidesMeta.length →
      ((mixedLoop slidesMeta startLang pattern fuel cuts plan δ u).1.slidesOut).length =
        slidesMeta.length := by
  intro fuel
  induction fuel with
  | zero => intro cuts plan δ u h; exact h
  | succ fuel ih =>
    intro cuts plan δ u h
    cases hc : searchCandidate slidesMeta startLang pattern cuts with
    | none => simp only [mixedLoop, hc]; exact h
    | some c =>
      simp only [mixedLoop, hc]
      split_ifs with hlt
      · apply ih
        obtain ⟨cuts', hcuts'⟩ := searchCandidate_rebuild slidesMeta startLang
          pattern cuts c hc
        rw [hcuts', buildPlan_slides_length]
      · exact h

theorem length_filterMap_eq_countP {α β : Type} (f : α → Option β) (l : List α) :
    (l.filterMap f).length = l.countP (fun a => (f a).isSome) := by
  induction l with
  | nil => simp
  | cons a l ih =>
    cases hf : f a with
    | none => simp [List.filterMap_cons, hf, List.countP_cons, ih]
    | some b => simp [List.filterMap_cons, hf, List.countP_cons, ih]

theorem slidesMetaOf_length (enS frS : List Slide) (total : ℕ) :
    (slidesMetaOf enS frS total).length =
      (List.range total).countP
        (fun i => !(natMax (enS.getD i (fillerSlide i)).paragraphs.length
            (frS.getD i (fillerSlide i)).paragraphs.length == 0)) := by
  unfold slidesMetaOf
  rw [length_filterMap_eq_countP]
  apply List.countP_congr
  intro i _
  by_cases h : natMax (enS.getD i (fillerSlide i)).paragraphs.length
      (frS.getD i (fillerSlide i)).paragraphs.length = 0
  · simp [h]
  · simp [h]

/-- C5: the number of emitted segments equals the number of paired
positions with content on at least one side — for the speech walk
(paragraph pairs with at least one nonempty text, the final swap pass not
changing the count), for single-slide presentation mode, and for mixed
presentation mode (whatever plan the cut search returns) — and positions
empty on both sides produce no segment. -/
theorem output_segment_counts (enText frText : List Char) (startLang : Lang)
    (blockTime : ℤ) (pattern : MixedPattern) :
    (mergeFinalState enText frText startLang blockTime).outputParas.length =
      (List.range (natMax (mergeParas enText).length (mergeParas frText).length)).countP
        (fun i => !(((mergeParas enText).getD i fillerPara).text.isEmpty &&
                    ((mergeParas frText).getD i fillerPara).text.isEmpty)) ∧
    (singleFinalState enText frText startLang).slidesOut.length =
      (List.range (natMax (parseSlides enText).length (parseSlides frText).length)).countP
        (fun i => !(natMax ((parseSlides enText).getD i (fillerSlide i)).paragraphs.length
            ((parseSlides frText).getD i (fillerSlide i)).paragraphs.length == 0)) ∧
    (mixedSearchResult enText frText startLang pattern).1.slidesOut.length =
      (List.range (natMax (parseSlides enText).length (parseSlides frText).length)).countP
        (fun i => !(natMax ((parseSlides enText).getD i (fillerSlide i)).paragraphs.length
            ((parseSlides frText).getD i (fillerSlide i)).paragraphs.length == 0)) := by
  refine ⟨?_, ?_, ?_⟩
  · unfold mergeFinalState
    rw [mergeSwapPass_output_length, merge_walk_output_length]
    simp [initialMergeState]
  · unfold singleFinalState
    rw [single_walk_slides_length]
    simp
  · unfold mixedSearchResult
    rw [mixedLoop_plan_length _ _ _ _ _ _ _ _ (buildPlan_slides_length _ _ _ _)]
    unfold mixedSlidesMeta
    rw [slidesMetaOf_length]

/-! ## C8: punctuation-mode versus plain-mode estimate -/

theorem runCountAux_state_irrel (b b' : Bool) (cs : List Char)
    (h : ∀ c, cs.head? = some c → wsChar c = true) :
    runCountAux b cs = runCountAux b' cs := by
  cases cs with
  | nil => rfl
  | cons c cs =>
    have hc := h c rfl
    simp [runCountAux, hc]

theorem runCountAux_all_ws (s : List Char) (h : ∀ c ∈ s, wsChar c = true) :
    ∀ b, runCountAux b s = 0 := by
  induction s with
  | nil => intro b; rfl
  | cons c cs ih =>
    intro b
    have hc := h c (List.mem_cons_self _ _)
    simp [runCountAux, hc, ih (fun x hx => h x (List.mem_cons_of_mem _ hx)) true]

theorem runCountAux_append_ws (s : List Char) (hs : ∀ c ∈ s, wsChar c = true) :
    ∀ (x : List Char) (b : Bool), runCountAux b (x ++ s) = runCountAux b x := by
  intro x
  induction x with
  | nil =>
    intro b
    simpa [runCountAux] using runCountAux_all_ws s hs b
  | cons c cs ih =>
    intro b
    show (if (b && !wsChar c) = true then 1 else 0) + runCountAux (wsChar c) (cs ++ s) =
      (if (b && !wsChar c) = true then 1 else 0) + runCountAux (wsChar c) cs
    rw [ih]

theorem runCountAux_dropWhile_ws (l : List Char) :
    runCountAux true (l.dropWhile wsChar) = runCountAux true l := by
  induction l with
  | nil => rfl
  | cons c cs ih =>
    by_cases h : wsChar c
    · rw [List.dropWhile_cons_of_pos h, ih]
      simp [runCountAux, h]
    · rw [List.dropWhile_cons_of_neg h]

theorem mem_takeWhile_ws (l : List Char) (c : Char)
    (h : c ∈ l.takeWhile wsChar) : wsChar c = true := by
  induction l with
  | nil => cases h
  | cons a as ih =>
    by_cases ha : wsChar a
    · rw [List.takeWhile_cons_of_pos ha] at h
      rcases List.mem_cons.mp h with rfl | h2
      · exact ha
      · exact ih h2
  -- the run stops at the first non-whitespace character
    · rw [List.takeWhile_cons_of_neg ha] at h
      cases h

theorem runCount_trimChars (l : List Char) : runCount (trimChars l) = runCount l := by
  unfold trimChars runCount
  set u := l.dropWhile wsChar with hu
  have hdecomp : u = (u.reverse.dropWhile wsChar).reverse ++
      (u.reverse.takeWhile wsChar).reverse := by
    rw [← List.reverse_append, List.takeWhile_append_dropWhile, List.reverse_reverse]
  have hws : ∀ c ∈ (u.reverse.takeWhile wsChar).reverse, wsChar c = true := by
    intro c hc
    exact mem_takeWhile_ws _ _ (List.mem_reverse.mp hc)
  calc runCountAux true (u.reverse.dropWhile wsChar).reverse
      = runCountAux true ((u.reverse.dropWhile wsChar).reverse ++
          (u.reverse.takeWhile wsChar).reverse) :=
        (runCountAux_append_ws _ hws _ _).symm
    _ = runCountAux true u := by rw [← hdecomp]
    _ = runCountAux true l := runCountAux_dropWhile_ws l

theorem runCountAux_false_eq_dropRun (cs : List Char) :
    runCountAux false cs =
      runCountAux true (cs.dropWhile (fun d => !wsChar d)) := by
  induction cs with
  | nil => rfl
  | cons d ds ih =>
    by_cases hd : wsChar d
    · rw [List.dropWhile_cons_of_neg (by simp [hd])]
      simp [runCountAux, hd]
    · rw [List.dropWhile_cons_of_pos (by simp [hd])]
      simpa [runCountAux, hd] using ih

theorem tokensGo_length_eq_runCount :
    ∀ (fuel : ℕ) (l : List Char), l.length ≤ fuel → '«' ∉ l →
      (tokensGo fuel l).length = runCount l := by
  intro fuel
  induction fuel with
  | zero =>
    intro l hlen _
    cases l with
    | nil => rfl
    | cons c cs => simp at hlen
  | succ fuel ih =>
    intro l hlen hmem
    cases l with
    | nil => rfl
    | cons c cs =>
      simp only [List.length_cons] at hlen
      by_cases hws : wsChar c
      · have : tokensGo (fuel + 1) (c :: cs) = tokensGo fuel cs := by
          simp [tokensGo, hws]
        rw [this, ih cs (by omega) (fun h => hmem (List.mem_cons_of_mem _ h))]
        show runCountAux true cs = runCount (c :: cs)
        simp [runCount, runCountAux, hws]
      · have hne : c ≠ '«' := fun h => hmem (h ▸ List.mem_cons_self _ _)
        have : tokensGo (fuel + 1) (c :: cs) =
            (c :: cs.takeWhile (fun d => !wsChar d)) ::
            tokensGo fuel (cs.dropWhile (fun d => !wsChar d)) := by
          simp only [tokensGo]
          rw [if_neg hws, if_neg (by rintro ⟨h, -⟩; exact hne h)]
        rw [this]
        have hdrop : '«' ∉ cs.dropWhile (fun d => !wsChar d) := fun h =>
          hmem (List.mem_cons_of_mem _ ((List.dropWhile_sublist _).subset h))
        have hdlen : (cs.dropWhile (fun d => !wsChar d)).length ≤ fuel :=
          le_trans (length_dropWhile_le' _ _) (by omega)
        simp only [List.length_cons, ih _ hdlen hdrop]
        show runCountAux true (cs.dropWhile (fun d => !wsChar d)) + 1 =
          runCountAux true (c :: cs)
        rw [← runCountAux_false_eq_dropRun]
        have hwsf : wsChar c = false := by
          revert hws; cases wsChar c <;> simp
        simp [runCountAux, hwsf]
        try omega

theorem mem_trimChars (l : List Char) (c : Char) (h : c ∈ trimChars l) :
    c ∈ l := by
  unfold trimChars at h
  have h1 := (List.dropWhile_sublist (p := wsChar)
    (l := (l.dropWhile wsChar).reverse)).subset (List.mem_reverse.mp h)
  exact (List.dropWhile_sublist _).subset (List.mem_reverse.mp h1)

theorem countWords_eq_runCount (t : List Char) (h : '«' ∉ t) :
    countWords t = runCount t := by
  unfold countWords tokens
  rw [tokensGo_length_eq_runCount _ _ (le_refl _)
    (fun hc => h (mem_trimChars _ _ hc)), runCount_trimChars]

theorem collapseSepsGo_id :
    ∀ (fuel : ℕ) (l : List Char), (∀ c ∈ l, c ≠ '*' ∧ c ≠ '-') →
      collapseSepsGo fuel l = l := by
  intro fuel
  induction fuel with
  | zero => intro l _; cases l <;> rfl
  | succ fuel ih =>
    intro l h
    cases l with
    | nil => rfl
    | cons c cs =>
      have hc := h c (List.mem_cons_self _ _)
      simp only [collapseSepsGo]
      rw [if_neg hc.1, if_neg hc.2,
        ih cs (fun x hx => h x (List.mem_cons_of_mem _ hx))]

theorem quoteNormGo_id :
    ∀ (fuel : ℕ) (l : List Char), (∀ c ∈ l, c ≠ '"') →
      quoteNormGo fuel l = l := by
  intro fuel
  induction fuel with
  | zero => intro l _; cases l <;> rfl
  | succ fuel ih =>
    intro l h
    cases l with
    | nil => rfl
    | cons c cs =>
      have hc := h c (List.mem_cons_self _ _)
      simp only [quoteNormGo]
      rw [if_neg (by rintro ⟨h1, -⟩; exact hc h1),
        ih cs (fun x hx => h x (List.mem_cons_of_mem _ hx))]

theorem runCountAux_collapseWsGo (fuel : ℕ) :
    ∀ (l : List Char) (b : Bool),
      runCountAux b (collapseWsGo fuel l) = runCountAux b l := by
  induction fuel with
  | zero => intro l b; cases l <;> rfl
  | succ fuel ih =>
    intro l b
    cases l with
    | nil => rfl
    | cons c cs =>
      by_cases hws : wsChar c
      · have : collapseWsGo (fuel + 1) (c :: cs) =
            ' ' :: collapseWsGo fuel (cs.dropWhile wsChar) := by
          simp [collapseWsGo, hws]
        rw [this]
        show (if (b && !wsChar ' ') = true then 1 else 0) +
            runCountAux (wsChar ' ') (collapseWsGo fuel (cs.dropWhile wsChar)) =
          runCountAux b (c :: cs)
        have hsp : wsChar ' ' = true := by decide
        rw [hsp, ih]
        show (if (b && !true) = true then 1 else 0) + runCountAux true (cs.dropWhile wsChar) =
          (if (b && !wsChar c) = true then 1 else 0) + runCountAux (wsChar c) cs
        rw [runCountAux_dropWhile_ws, hws]
      · have : collapseWsGo (fuel + 1) (c :: cs) =
            c :: collapseWsGo fuel cs := by
          simp [collapseWsGo, hws]
        rw [this]
        show (if b && !wsChar c then 1 else 0) +
            runCountAux (wsChar c) (collapseWsGo fuel cs) = runCountAux b (c :: cs)
        rw [ih]
        rfl

theorem mem_collapseWsGo (fuel : ℕ) :
    ∀ (l : List Char) (c : Char), c ∈ collapseWsGo fuel l → c ∈ l ∨ c = ' ' := by
  induction fuel with
  | zero =>
    intro l c h
    cases l with
    | nil => cases h
    | cons a as => exact Or.inl h
  | succ fuel ih =>
    intro l c h
    cases l with
    | nil => cases h
    | cons a as =>
      by_cases hws : wsChar a
      · rw [show collapseWsGo (fuel + 1) (a :: as) =
            ' ' :: collapseWsGo fuel (as.dropWhile wsChar) by
          simp [collapseWsGo, hws]] at h
        rcases List.mem_cons.mp h with rfl | h2
        · exact Or.inr rfl
        · rcases ih _ _ h2 with h3 | h3
          · exact Or.inl (List.mem_cons_of_mem _ ((List.dropWhile_sublist _).subset h3))
          · exact Or.inr h3
      · rw [show collapseWsGo (fuel + 1) (a :: as) =
            a :: collapseWsGo fuel as by simp [collapseWsGo, hws]] at h
        rcases List.mem_cons.mp h with rfl | h2
        · exact Or.inl (List.mem_cons_self _ _)
        · rcases ih _ _ h2 with h3 | h3
          · exact Or.inl (List.mem_cons_of_mem _ h3)
          · exact Or.inr h3

theorem runCountAux_split_at_ws (c : Char) (cs : List Char)
    (hcs : ∀ d, cs.head? = some d → wsChar d = true) :
    ∀ (A : List Char) (b : Bool),
      runCountAux b (A ++ c :: cs) =
        runCountAux b (A ++ [c]) + runCountAux true cs := by
  intro A
  induction A with
  | nil =>
    intro b
    show runCountAux b (c :: cs) = runCountAux b [c] + runCountAux true cs
    simp only [runCountAux]
    rw [runCountAux_state_irrel (wsChar c) true cs hcs]
    omega
  | cons a A' ih =>
    intro b
    show (if (b && !wsChar a) = true then 1 else 0) + runCountAux (wsChar a) (A' ++ c :: cs) =
      ((if (b && !wsChar a) = true then 1 else 0) + runCountAux (wsChar a) (A' ++ [c])) +
        runCountAux true cs
    rw [ih]
    omega

theorem sentSplit_runCount_sum :
    ∀ (fuel : ℕ) (l acc : List Char), l.length ≤ fuel → '|' ∉ l →
      ((sentSplitGo fuel l acc).map runCount).sum = runCount (acc.reverse ++ l) := by
  intro fuel
  induction fuel with
  | zero =>
    intro l acc hlen _
    cases l with
    | nil => simp [sentSplitGo, runCount]
    | cons c cs => simp at hlen
  | succ fuel ih =>
    intro l acc hlen hmem
    cases l with
    | nil => simp [sentSplitGo, runCount]
    | cons c cs =>
      simp only [List.length_cons] at hlen
      have hpipe : c ≠ '|' := fun h => hmem (h ▸ List.mem_cons_self _ _)
      have hcs : '|' ∉ cs := fun h => hmem (List.mem_cons_of_mem _ h)
      by_cases hsplit : ((c == '.' || c == '!' || c == '?') &&
          cs.head?.any wsChar) = true
      · have : sentSplitGo (fuel + 1) (c :: cs) acc =
            (acc.reverse ++ [c]) :: sentSplitGo fuel (cs.dropWhile wsChar) [] := by
          simp only [sentSplitGo]
          rw [if_neg hpipe, if_pos hsplit]
        rw [this]
        have hdlen : (cs.dropWhile wsChar).length ≤ fuel :=
          le_trans (length_dropWhile_le' _ _) (by omega)
        have hdmem : '|' ∉ cs.dropWhile wsChar := fun h =>
          hcs ((List.dropWhile_sublist _).subset h)
        simp only [List.map_cons, List.sum_cons, ih _ _ hdlen hdmem]
        have hhead : ∀ d, cs.head? = some d → wsChar d = true := by
          intro d hd
          have := (Bool.and_eq_true _ _).mp hsplit
          rw [hd] at this
          simpa using this.2
        show runCount (acc.reverse ++ [c]) +
            runCount (List.reverse [] ++ cs.dropWhile wsChar) = _
        unfold runCount
        rw [runCountAux_split_at_ws c cs hhead acc.reverse true]
        simp only [List.reverse_nil, List.nil_append]
        rw [runCountAux_dropWhile_ws]
      · have : sentSplitGo (fuel + 1) (c :: cs) acc =
            sentSplitGo fuel cs (c :: acc) := by
          simp only [sentSplitGo]
          rw [if_neg hpipe, if_neg hsplit]
        rw [this, ih _ _ (by omega) hcs]
        rw [List.reverse_cons, List.append_assoc]
        rfl

theorem mem_of_mem_sentSplitGo :
    ∀ (fuel : ℕ) (l acc p : List Char), p ∈ sentSplitGo fuel l acc →
      ∀ c ∈ p, c ∈ l ∨ c ∈ acc := by
  intro fuel
  induction fuel with
  | zero =>
    intro l acc p hp c hc
    cases l with
    | nil =>
      simp only [sentSplitGo, List.mem_singleton] at hp
      exact Or.inr (List.mem_reverse.mp (hp ▸ hc))
    | cons a as =>
      simp only [sentSplitGo, List.mem_singleton] at hp
      exact Or.inr (List.mem_reverse.mp (hp ▸ hc))
  | succ fuel ih =>
    intro l acc p hp c hc
    cases l with
    | nil =>
      simp only [sentSplitGo, List.mem_singleton] at hp
      exact Or.inr (List.mem_reverse.mp (hp ▸ hc))
    | cons a as =>
      by_cases hpipe : a = '|'
      · rw [show sentSplitGo (fuel + 1) (a :: as) acc =
            acc.reverse :: sentSplitGo fuel as [] by
          simp only [sentSplitGo]; rw [if_pos hpipe]] at hp
        rcases List.mem_cons.mp hp with rfl | hp2
        · exact Or.inr (List.mem_reverse.mp hc)
        · rcases ih as [] p hp2 c hc with h | h
          · exact Or.inl (List.mem_cons_of_mem _ h)
          · cases h
      · by_cases hsplit : ((a == '.' || a == '!' || a == '?') &&
            as.head?.any wsChar) = true
        · rw [show sentSplitGo (fuel + 1) (a :: as) acc =
              (acc.reverse ++ [a]) :: sentSplitGo fuel (as.dropWhile wsChar) [] by
            simp only [sentSplitGo]; rw [if_neg hpipe, if_pos hsplit]] at hp
          rcases List.mem_cons.mp hp with rfl | hp2
          · rcases List.mem_append.mp hc with h | h
            · exact Or.inr (List.mem_reverse.mp h)
            · rcases List.mem_singleton.mp h with rfl
              exact Or.inl (List.mem_cons_self _ _)
          · rcases ih _ [] p hp2 c hc with h | h
            · exact Or.inl (List.mem_cons_of_mem _ ((List.dropWhile_sublist _).subset h))
            · cases h
        · rw [show sentSplitGo (fuel + 1) (a :: as) acc =
              sentSplitGo fuel as (a :: acc) by
            simp only [sentSplitGo]; rw [if_neg hpipe, if_neg hsplit]] at hp
          rcases ih _ _ p hp c hc with h | h
          · exact Or.inl (List.mem_cons_of_mem _ h)
          · rcases List.mem_cons.mp h with rfl | h2
            · exact Or.inl (List.mem_cons_self _ _)
            · exact Or.inr h2

/-- C8 (amended): for every text containing a terminal or clause
punctuation mark and none of the characters `*`, `-`, `"`, `|`, `«`
(so the cleanup steps delete or merge no tokens), the punctuation-aware
estimate is at least the plain-mode estimate over the raw word count. -/
theorem estimateDuration_punct_ge_plain_of_clean (t : List Char)
    (hchars : ∀ c ∈ t, c ≠ '*' ∧ c ≠ '-' ∧ c ≠ '"' ∧ c ≠ '|' ∧ c ≠ '«')
    (hpunct : ∃ c ∈ t, c = '.' ∨ c = '!' ∨ c = '?' ∨ c = ',' ∨ c = ';' ∨ c = ':') :
    estimateDuration (.inl (countWords t)) ≤ estimateDuration (.inr t) := by
  clear hpunct
  have hsep : collapseSeps t = t :=
    collapseSepsGo_id _ t (fun c hc => ⟨(hchars c hc).1, (hchars c hc).2.1⟩)
  have hwmem : ∀ c ∈ collapseWs t, c ∈ t ∨ c = ' ' := fun c hc =>
    mem_collapseWsGo _ t c hc
  have hq : quoteNorm (collapseWs t) = collapseWs t := by
    apply quoteNormGo_id
    intro c hc
    rcases hwmem c hc with h | h
    · exact (hchars c h).2.2.1
    · rw [h]; decide
  have hwpipe : '|' ∉ collapseWs t := by
    intro hc
    rcases hwmem _ hc with h | h
    · exact (hchars _ h).2.2.2.1 rfl
    · cases h
  have hwguill : ∀ c ∈ collapseWs t, c ≠ '«' := by
    intro c hc
    rcases hwmem c hc with h | h
    · exact (hchars c h).2.2.2.2
    · rw [h]; decide
  -- total units dominate the run count of the cleaned text
  have hkey : countWords t ≤
      ((sentSplit (quoteNorm (collapseWs (collapseSeps t)))).map
        (fun s => if (trimChars s).isEmpty = true then 0 else sentenceUnits s)).sum := by
    rw [hsep, hq]
    have hpoint : ∀ s ∈ sentSplit (collapseWs t),
        runCount s ≤ (if (trimChars s).isEmpty = true then 0 else sentenceUnits s) := by
      intro s hs
      by_cases hemp : (trimChars s).isEmpty = true
      · rw [if_pos hemp]
        have : runCount s = runCount (trimChars s) := (runCount_trimChars s).symm
        rw [this, List.isEmpty_iff.mp hemp]
        exact Nat.le_refl 0
      · rw [if_neg hemp]
        have hsub : '«' ∉ trimChars s := by
          intro hmem
          have h1 := mem_trimChars _ _ hmem
          have h2 := mem_of_mem_sentSplitGo _ _ _ _ hs '«' h1
          rcases h2 with h3 | h3
          · exact hwguill _ h3 rfl
          · cases h3
        have h1 : (tokens (trimChars s)).length = runCount (trimChars s) := by
          unfold tokens
          exact tokensGo_length_eq_runCount _ _ (le_refl _) hsub
        have h2 : runCount s = runCount (trimChars s) := (runCount_trimChars s).symm
        calc runCount s = (tokens (trimChars s)).length := by rw [h2, h1]
          _ ≤ sentenceUnits s := by
              unfold sentenceUnits
              dsimp only
              omega
    have hsum : ((sentSplit (collapseWs t)).map runCount).sum ≤
        ((sentSplit (collapseWs t)).map
          (fun s => if (trimChars s).isEmpty = true then 0 else sentenceUnits s)).sum := by
      apply List.sum_le_sum
      intro s hs
      exact hpoint s hs
    have hrc : ((sentSplit (collapseWs t)).map runCount).sum = runCount t := by
      unfold sentSplit
      rw [sentSplit_runCount_sum _ _ [] (le_refl _) hwpipe]
      show runCount ([] ++ collapseWs t) = _
      rw [List.nil_append]
      show runCountAux true (collapseWsGo t.length t) = runCount t
      rw [runCountAux_collapseWsGo]
      rfl
    have hcw : countWords t = runCount t :=
      countWords_eq_runCount t (fun h => (hchars _ h).2.2.2.2 rfl)
    omega
  show ((countWords t : ℚ) / 150) * 60 ≤ estimateDurationText t
  unfold estimateDurationText
  have hmono : ((countWords t : ℚ)) ≤
      (((sentSplit (quoteNorm (collapseWs (collapseSeps t)))).map
        (fun s => if (trimChars s).isEmpty = true then 0 else sentenceUnits s)).sum : ℚ) := by
    exact_mod_cast hkey
  have h150 : (0 : ℚ) < 150 := by norm_num
  calc ((countWords t : ℚ) / 150) * 60
      ≤ ((((sentSplit (quoteNorm (collapseWs (collapseSeps t)))).map
          (fun s => if (trimChars s).isEmpty = true then 0 else sentenceUnits s)).sum : ℚ)
          / 150) * 60 := by linarith
    _ = _ := rfl

/-- Witness for `estimateDuration_punct_ge_plain_of_clean` at a concrete
clean punctuated text. -/
theorem estimateDuration_punct_ge_plain_of_clean_witness :
    estimateDuration (.inl (countWords ("One, two three.").data)) ≤
      estimateDuration (.inr ("One, two three.").data) :=
  estimateDuration_punct_ge_plain_of_clean ("One, two three.").data
    (by decide) (by decide)

/-- C8 counterexample: `"--- --- ---,"` contains a clause punctuation mark,
but the separator-collapsing step deletes the dash runs, so the
punctuation-aware estimate (2 units, `4/5` s) is strictly below the
plain-mode estimate over the raw token count (3 tokens, `6/5` s).
The second text shows that the `«` exclusion of the amended claim is also
forced: `"«x. y»«a»«b»«c»«d» e"` contains none of `*`, `-`, `"`, `|`, yet
the sentence split cuts the first `«...»` phrase at `". "`, after which the
right fragment `y»` fuses with the following four `«...»` phrases into the
single `\S+` token `y»«a»«b»«c»«d»`; the terminal-punctuation bonus (+2)
does not make up for the three lost tokens, so the punctuation-aware
estimate (5 units, `2` s) is strictly below the plain-mode estimate
(6 tokens, `12/5` s). -/
theorem estimateDuration_punct_below_plain :
    (estimateDuration (.inr ("--- --- ---,").data) <
      estimateDuration (.inl (countWords ("--- --- ---,").data)) ∧
     ',' ∈ ("--- --- ---,").data) ∧
    (estimateDuration (.inr ("«x. y»«a»«b»«c»«d» e").data) <
      estimateDuration (.inl (countWords ("«x. y»«a»«b»«c»«d» e").data)) ∧
     (∀ c ∈ ("«x. y»«a»«b»«c»«d» e").data,
        c ≠ '*' ∧ c ≠ '-' ∧ c ≠ '"' ∧ c ≠ '|') ∧
     '.' ∈ ("«x. y»«a»«b»«c»«d» e").data) := by
  refine ⟨⟨?_, by decide⟩, ?_, by decide, by decide⟩
  · have h1 : estimateDuration (.inr ("--- --- ---,").data) = 4/5 := by
      with_unfolding_all rfl
    have h2 : estimateDuration (.inl (countWords ("--- --- ---,").data)) = 6/5 := by
      with_unfolding_all rfl
    rw [h1, h2]
    norm_num
  · have h1 : estimateDuration (.inr ("«x. y»«a»«b»«c»«d» e").data) = 2 := by
      with_unfolding_all rfl
    have h2 : estimateDuration (.inl (countWords ("«x. y»«a»«b»«c»«d» e").data)) = 12/5 := by
      with_unfolding_all rfl
    rw [h1, h2]
    norm_num

end BilingualMerger
